import Mathlib

/-!
Verification development for the Minecraft modded-recipe BOM calculator
(mcbom): a shallow embedding of the core recipe/tag discovery and
resolution engine (src/mcbom/core/engine.py, parser.py, exporter.py),
together with theorems settling the stated correctness claims.

Quantities are modelled as exact rationals (the exact-arithmetic reading
of the Python float arithmetic); machine division by zero is tracked by
separate instrumented variants, since in Lean division by zero is total.
-/

/-- JSON-like values as produced by Python json.load.  Python bools are a
subclass of int, so they are kept as a separate constructor and the
numeric coercions treat them the way Python int() does. -/
inductive J where
  | s (v : String)
  | i (n : Int)
  | f (q : Rat)
  | b (v : Bool)
  | null
  | a (l : List J)
  | o (l : List (String × J))
deriving Repr

mutual

/-- Decidable equality on JSON values (spelled out because automatic
derivation does not handle the nested lists). -/
def J.decEq (x y : J) : Decidable (x = y) :=
  match x, y with
  | .s v, .s w =>
    if h : v = w then .isTrue (by rw [h]) else .isFalse (by simp [h])
  | .i v, .i w =>
    if h : v = w then .isTrue (by rw [h]) else .isFalse (by simp [h])
  | .f v, .f w =>
    if h : v = w then .isTrue (by rw [h]) else .isFalse (by simp [h])
  | .b v, .b w =>
    if h : v = w then .isTrue (by rw [h]) else .isFalse (by simp [h])
  | .null, .null => .isTrue rfl
  | .a v, .a w =>
    match J.decEqList v w with
    | .isTrue h => .isTrue (by rw [h])
    | .isFalse h => .isFalse (by simp [h])
  | .o v, .o w =>
    match J.decEqObj v w with
    | .isTrue h => .isTrue (by rw [h])
    | .isFalse h => .isFalse (by simp [h])
  | .s _, .i _ => .isFalse (fun h => J.noConfusion h)
  | .s _, .f _ => .isFalse (fun h => J.noConfusion h)
  | .s _, .b _ => .isFalse (fun h => J.noConfusion h)
  | .s _, .null => .isFalse (fun h => J.noConfusion h)
  | .s _, .a _ => .isFalse (fun h => J.noConfusion h)
  | .s _, .o _ => .isFalse (fun h => J.noConfusion h)
  | .i _, .s _ => .isFalse (fun h => J.noConfusion h)
  | .i _, .f _ => .isFalse (fun h => J.noConfusion h)
  | .i _, .b _ => .isFalse (fun h => J.noConfusion h)
  | .i _, .null => .isFalse (fun h => J.noConfusion h)
  | .i _, .a _ => .isFalse (fun h => J.noConfusion h)
  | .i _, .o _ => .isFalse (fun h => J.noConfusion h)
  | .f _, .s _ => .isFalse (fun h => J.noConfusion h)
  | .f _, .i _ => .isFalse (fun h => J.noConfusion h)
  | .f _, .b _ => .isFalse (fun h => J.noConfusion h)
  | .f _, .null => .isFalse (fun h => J.noConfusion h)
  | .f _, .a _ => .isFalse (fun h => J.noConfusion h)
  | .f _, .o _ => .isFalse (fun h => J.noConfusion h)
  | .b _, .s _ => .isFalse (fun h => J.noConfusion h)
  | .b _, .i _ => .isFalse (fun h => J.noConfusion h)
  | .b _, .f _ => .isFalse (fun h => J.noConfusion h)
  | .b _, .null => .isFalse (fun h => J.noConfusion h)
  | .b _, .a _ => .isFalse (fun h => J.noConfusion h)
  | .b _, .o _ => .isFalse (fun h => J.noConfusion h)
  | .null, .s _ => .isFalse (fun h => J.noConfusion h)
  | .null, .i _ => .isFalse (fun h => J.noConfusion h)
  | .null, .f _ => .isFalse (fun h => J.noConfusion h)
  | .null, .b _ => .isFalse (fun h => J.noConfusion h)
  | .null, .a _ => .isFalse (fun h => J.noConfusion h)
  | .null, .o _ => .isFalse (fun h => J.noConfusion h)
  | .a _, .s _ => .isFalse (fun h => J.noConfusion h)
  | .a _, .i _ => .isFalse (fun h => J.noConfusion h)
  | .a _, .f _ => .isFalse (fun h => J.noConfusion h)
  | .a _, .b _ => .isFalse (fun h => J.noConfusion h)
  | .a _, .null => .isFalse (fun h => J.noConfusion h)
  | .a _, .o _ => .isFalse (fun h => J.noConfusion h)
  | .o _, .s _ => .isFalse (fun h => J.noConfusion h)
  | .o _, .i _ => .isFalse (fun h => J.noConfusion h)
  | .o _, .f _ => .isFalse (fun h => J.noConfusion h)
  | .o _, .b _ => .isFalse (fun h => J.noConfusion h)
  | .o _, .null => .isFalse (fun h => J.noConfusion h)
  | .o _, .a _ => .isFalse (fun h => J.noConfusion h)

/-- Decidable equality for lists of JSON values. -/
def J.decEqList (x y : List J) : Decidable (x = y) :=
  match x, y with
  | [], [] => .isTrue rfl
  | [], _ :: _ => .isFalse (fun h => List.noConfusion h)
  | _ :: _, [] => .isFalse (fun h => List.noConfusion h)
  | x :: xs, y :: ys =>
    match J.decEq x y with
    | .isTrue h1 =>
      match J.decEqList xs ys with
      | .isTrue h2 => .isTrue (by rw [h1, h2])
      | .isFalse h2 => .isFalse (by simp [h2])
    | .isFalse h1 => .isFalse (by simp [h1])

/-- Decidable equality for JSON object field lists. -/
def J.decEqObj (x y : List (String × J)) : Decidable (x = y) :=
  match x, y with
  | [], [] => .isTrue rfl
  | [], _ :: _ => .isFalse (fun h => List.noConfusion h)
  | _ :: _, [] => .isFalse (fun h => List.noConfusion h)
  | (k1, v1) :: xs, (k2, v2) :: ys =>
    if hk : k1 = k2 then
      match J.decEq v1 v2 with
      | .isTrue h1 =>
        match J.decEqObj xs ys with
        | .isTrue h2 => .isTrue (by rw [hk, h1, h2])
        | .isFalse h2 => .isFalse (by simp [h2])
      | .isFalse h1 => .isFalse (by simp [h1])
    else .isFalse (by simp [hk])

end

instance : DecidableEq J := J.decEq

abbrev Registry := List (J × J)
abbrev Tags := List (String × List J)

/-- First-match association lookup (Python dict read). -/
def assocGet {α : Type} [DecidableEq α] {β : Type} : List (α × β) → α → Option β
  | [], _ => none
  | (k, v) :: t, x => if k = x then some v else assocGet t x

/-- Python dict member read obj.get(key) for a J object; none on non-objects. -/
def J.get : J → String → Option J
  | .o l, k => assocGet l k
  | _, _ => none

/-- Python truthiness of a JSON-derived value. -/
def J.truthy : J → Bool
  | .s v => v != ""
  | .i n => n != 0
  | .f q => q != 0
  | .b v => v
  | .null => false
  | .a l => !l.isEmpty
  | .o l => !l.isEmpty

/-- General association set with Python dict assignment semantics: replace
the value in place if the key is present, else append. -/
def assocSet {α : Type} [DecidableEq α] {β : Type} : List (α × β) → α → β → List (α × β)
  | [], k, v => [(k, v)]
  | (k', v') :: t, k, v => if k' = k then (k, v) :: t else (k', v') :: assocSet t k v

/-- Python: a or b (on JSON-derived values). -/
def pyOr (x y : J) : J := if x.truthy then x else y

/-- Python dict.get(k) defaulting to None. -/
def jGetDef (fl : List (String × J)) (k : String) : J := (assocGet fl k).getD .null

/-- Python int() truncation toward zero on a rational. -/
def truncInt (q : Rat) : Int := if 0 ≤ q then q.floor else -((-q).floor)

/-- The numeric reading used by isinstance(c, (int, float)) checks followed
by int(c); Python bool is a subclass of int. -/
def jNum : J → Option Rat
  | .i n => some (n : Rat)
  | .f q => some q
  | .b v => some (if v then 1 else 0)
  | _ => none

/-- engine.py NS_ALIASES: namespace alias map, canonicalized to short forms. -/
def NS_ALIASES : List (String × String) :=
  [("appliedenergistics2", "ae2"), ("ae2", "ae2")]

/-- Python item_id.split(":", 1) on the character list: the part before the
first colon and the rest; none when there is no colon. -/
def splitColon : List Char → Option (List Char × List Char)
  | [] => none
  | c :: cs =>
    if c = ':' then some ([], cs)
    else match splitColon cs with
      | none => none
      | some (p, r) => some (c :: p, r)

/-- BomEngine._canon on strings: normalize a known namespace alias, pass
everything else through (including ids without a colon). -/
def canonStr (sv : String) : String :=
  match splitColon sv.data with
  | none => sv
  | some (ns, name) =>
    let ns2 := (assocGet NS_ALIASES (String.mk ns)).getD (String.mk ns)
    String.mk (ns2.data ++ ':' :: name)

/-- BomEngine._canon: non-string ids are returned unchanged. -/
def canon : J → J
  | .s v => .s (canonStr v)
  | j => j

/-- BomEngine._apply_namespace_aliases: add canonical-key entries for any
recipe keyed by an alias namespace (iterates the original items, checks the
map being built). -/
def apply_namespace_aliases (recipes : Registry) : Registry :=
  recipes.foldl
    (fun nm p =>
      if (assocGet nm (canon p.1)).isSome then nm else nm ++ [(canon p.1, p.2)])
    recipes

/-- BomEngine._output_count: produced item count of a recipe, from a
result/output dict count (int(c)), a bare-string result (1), default 1.
A result dict without a numeric count falls through to the output key. -/
def output_count (recipe : J) : Int :=
  let resPart : Option Int :=
    match recipe.get "result" with
    | some (.o rf) => ((assocGet rf "count").bind jNum).map truncInt
    | some (.s _) => some 1
    | _ => none
  match resPart with
  | some n => n
  | none =>
    match recipe.get "output" with
    | some (.o rf) => (((assocGet rf "count").bind jNum).map truncInt).getD 1
    | _ => 1

/-- The expression recipe.get(\x22type\x22, \x22\x22) or \x22\x22 used by
both engine and parser: the declared type when truthy, else the empty
string. -/
def rtypeOf (recipe : J) : J :=
  let t := (recipe.get "type").getD (.s "")
  if t.truthy then t else .s ""

/-- Membership of the normalized type in the supported crafting set. -/
def supportedType (t : J) : Bool :=
  t = J.s "minecraft:crafting_shaped" ∨ t = J.s "minecraft:crafting_shapeless"

/-- str(rtype).endswith(\x22:inscriber\x22); for JSON-derived non-string
values the Python str() rendering never ends in that suffix. -/
def jEndsInscriber : J → Bool
  | .s v => v.endsWith ":inscriber"
  | _ => false

/-- BomEngine._get_ingredients_from_recipe._pick_item: item id from an
ingredient cell: a string item field, else the first member of a referenced
tag (whatever JSON value that is), else the first entry of an items list
when it is a string. -/
def pick_item (tags : Tags) : J → Option J
  | .o fields =>
    match assocGet fields "item" with
    | some (.s v) => some (.s v)
    | _ =>
      match assocGet fields "tag" with
      | some (.s tg) => ((assocGet tags tg).getD []).head?
      | _ =>
        match assocGet fields "items" with
        | some (.a (c :: _)) =>
          match c with
          | .s v => some (.s v)
          | _ => none
        | _ => none
  | _ => none

/-- One inscriber slot (top/middle/bottom): absent or null slots contribute
nothing; a nonempty list collapses to its first element; count defaults
to 1 unless the chosen cell has a numeric count. -/
def inscriberSlot (tags : Tags) (ingobj : List (String × J)) (pos : String) :
    List (J × Int) :=
  match assocGet ingobj pos with
  | none => []
  | some .null => []
  | some c0 =>
    let choice := match c0 with
      | .a (x :: _) => x
      | _ => c0
    match pick_item tags choice with
    | none => []
    | some it =>
      if it.truthy then
        let q : Int := match choice with
          | .o fl =>
            match (assocGet fl "count").bind jNum with
            | some qq => truncInt qq
            | none => 1
          | _ => 1
        [(it, q)]
      else []

/-- One shaped-grid key cell at a given symbol count: a nonempty list
collapses to its first element, a dict is used directly, anything else
(including an empty list) contributes nothing. -/
def shapedCell (tags : Tags) (cnt : Int) (cell : J) : List (J × Int) :=
  let choice? : Option J := match cell with
    | .a (x :: _) => some x
    | .o fl => some (.o fl)
    | _ => none
  match choice? with
  | none => []
  | some choice =>
    match pick_item tags choice with
    | none => []
    | some it => if it.truthy then [(it, cnt)] else []

/-- One shapeless-list ingredient: a nonempty list collapses to its first
element; count defaults to 1 unless the chosen cell has a numeric count. -/
def shapelessIng (tags : Tags) (ing : J) : List (J × Int) :=
  let choice := match ing with
    | .a (x :: _) => x
    | _ => ing
  match pick_item tags choice with
  | none => []
  | some it =>
    if it.truthy then
      let q : Int := match choice with
        | .o fl =>
          match (assocGet fl "count").bind jNum with
          | some qq => truncInt qq
          | none => 1
        | _ => 1
      [(it, q)]
    else []

/-- First-occurrence order of the distinct symbols of the joined pattern
(collections.Counter preserves insertion order). -/
def dedupFirst (l : List Char) : List Char :=
  l.foldl (fun acc c => if c ∈ acc then acc else acc ++ [c]) []

/-- BomEngine._get_ingredients_from_recipe: structural extraction for
inscriber-, shaped- and shapeless-like recipes, in that order of
precedence.  Non-string pattern rows would raise in Python and are outside
every claim; they contribute no symbols here. -/
def get_ingredients_from_recipe (tags : Tags) (recipe : J) : List (J × Int) :=
  let isInscriber :=
    (match recipe.get "ingredients" with | some (.o _) => true | _ => false)
      && jEndsInscriber (rtypeOf recipe)
  if isInscriber then
    match recipe.get "ingredients" with
    | some (.o ingobj) =>
      inscriberSlot tags ingobj "top" ++ inscriberSlot tags ingobj "middle"
        ++ inscriberSlot tags ingobj "bottom"
    | _ => []
  else
    match recipe.get "pattern", recipe.get "key" with
    | some (.a pattern), some (.o key) =>
      let chars := pattern.flatMap (fun row =>
        match row with
        | .s v => v.data.filter (fun c => c != ' ')
        | _ => [])
      if chars.isEmpty then []
      else
        (dedupFirst chars).flatMap (fun ch =>
          match assocGet key (String.singleton ch) with
          | some cell => shapedCell tags ((chars.count ch : Nat) : Int) cell
          | none => [])
    | _, _ =>
      match recipe.get "ingredients" with
      | some (.a l) => l.flatMap (shapelessIng tags)
      | _ => []

/-- Counters: Python collections.Counter as an insertion-ordered
association list from item to rational quantity. -/
abbrev Cnt := List (J × Rat)

/-- Counter read: missing keys count as zero (also how Counter equality
treats them).  Stated as the sum over matching entries, which on the
key-unique association lists the engine manipulates is exactly the Python
dict read. -/
def Cnt.get (c : Cnt) (k : J) : Rat :=
  (c.map (fun p => if p.1 = k then p.2 else 0)).sum

/-- Add v to the count of k (in place when present, appended when new). -/
def Cnt.addOne : Cnt → J → Rat → Cnt
  | [], k, v => [(k, v)]
  | (k', v') :: t, k, v =>
    if k' = k then (k', v' + v) :: t else (k', v') :: Cnt.addOne t k v

/-- Counter.update: add every count of d into c. -/
def Cnt.update (c d : Cnt) : Cnt := d.foldl (fun acc p => Cnt.addOne acc p.1 p.2) c

/-- BomEngine._scale_counter: scale every count by a factor. -/
def scale_counter (c : Cnt) (factor : Rat) : Cnt :=
  c.map (fun p => (p.1, p.2 * factor))

/-- The memoization cache: canonical item id to per-unit raw vector. -/
abbrev Memo := List (J × Cnt)

/-- BomEngine.calculate_raw_materials as a fuelled recursion (none = out of
fuel; a sufficiency theorem below shows recipes.length + 1 fuel always
suffices, which is the termination argument of the Python recursion).
The visited set is the per-branch descent path; children receive a copy
with the current item added.  Rational division is total in Lean, so the
Python division-by-zero failure modes are tracked separately by
calcRawSafeF. -/
def calcRawF (recipes : Registry) (tags : Tags) :
    Nat → J → Rat → List J → Memo → Option (Cnt × Memo)
  | 0, _, _, _, _ => none
  | fuel + 1, item0, quantity, visited, memo =>
    let item := canon item0
    match assocGet memo item with
    | some base => some (scale_counter base quantity, memo)
    | none =>
      if item ∈ visited then some ([(item, quantity)], memo)
      else
        match assocGet recipes item with
        | none => some ([(item, quantity)], memo)
        | some recipe =>
          let multiplier := quantity / ((output_count recipe : Int) : Rat)
          let ings := get_ingredients_from_recipe tags recipe
          if ings.isEmpty && !supportedType (rtypeOf recipe) then
            some ([(item, quantity)], memo)
          else
            match ings.foldl
              (fun acc ing =>
                acc.bind (fun rm =>
                  (calcRawF recipes tags fuel (canon ing.1)
                      ((ing.2 : Rat) * multiplier) (item :: visited) rm.2).map
                    (fun sub => (Cnt.update rm.1 sub.1, sub.2))))
              (some (([] : Cnt), memo)) with
            | none => none
            | some (raw, m') =>
              some (raw, assocSet m' item (scale_counter raw (1 / quantity)))

/-- One production step, as recorded by calculate_with_steps. -/
structure Step where
  item : J
  count : Rat
  recipe_type : J
  ingredients : List (J × Rat)
deriving Repr, DecidableEq

/-- BomEngine.calculate_with_steps as a fuelled recursion: like
calculate_raw_materials but records parent-first production steps, uses no
memo, and treats any recipe with no parseable ingredients as raw. -/
def calcStepsF (recipes : Registry) (tags : Tags) :
    Nat → J → Rat → List J → Option (Cnt × List Step)
  | 0, _, _, _ => none
  | fuel + 1, item0, quantity, visited =>
    let item := canon item0
    if item ∈ visited then some ([(item, quantity)], [])
    else
      match assocGet recipes item with
      | none => some ([(item, quantity)], [])
      | some recipe =>
        let multiplier := quantity / ((output_count recipe : Int) : Rat)
        let ings := get_ingredients_from_recipe tags recipe
        if ings.isEmpty then some ([(item, quantity)], [])
        else
          let cur : Step :=
            { item := item, count := quantity,
              recipe_type := (recipe.get "type").getD (.s "unknown"),
              ingredients :=
                ings.map (fun ing => (canon ing.1, (ing.2 : Rat) * multiplier)) }
          ings.foldl
            (fun acc ing =>
              acc.bind (fun rs =>
                (calcStepsF recipes tags fuel (canon ing.1)
                    ((ing.2 : Rat) * multiplier) (item :: visited)).map
                  (fun sub => (Cnt.update rs.1 sub.1, rs.2 ++ sub.2))))
            (some (([] : Cnt), [cur]))

/-- Fuel that always suffices: one more than the number of registry
entries (each recursive descent consumes a distinct registry key). -/
def fuelFor (recipes : Registry) : Nat := recipes.length + 1

/-- The registry as the engine holds it after construction
(BomEngine.__init__ applies the namespace aliases). -/
def engineRecipes (recipes_data : Registry) : Registry :=
  apply_namespace_aliases recipes_data

/-- Public totals-only resolution on a freshly constructed engine. -/
def calculate_raw_materials (recipes_data : Registry) (tags : Tags)
    (item : J) (quantity : Rat) : Cnt × Memo :=
  (calcRawF (engineRecipes recipes_data) tags
    (fuelFor (engineRecipes recipes_data)) item quantity [] []).getD ([], [])

/-- Public steps-producing resolution on a freshly constructed engine. -/
def calculate_with_steps (recipes_data : Registry) (tags : Tags)
    (item : J) (quantity : Rat) : Cnt × List Step :=
  (calcStepsF (engineRecipes recipes_data) tags
    (fuelFor (engineRecipes recipes_data)) item quantity []).getD ([], [])

/-- BomEngine.analyze output: target, quantity, sorted raw totals, steps. -/
structure Analysis where
  target : J
  quantity : Rat
  total_raw_materials : List (J × Rat)
  steps : List Step
deriving Repr, DecidableEq

/-- Sort key for analyze: Python sorted() compares the raw string keys (a
non-string key would raise there; every claim uses string ids). -/
def sortKeyJ : J → String
  | .s v => v
  | _ => ""

/-- BomEngine.analyze: run calculate_with_steps and sort the raw totals by
item id (a stable mergesort, like CPython sorted). -/
def analyze (recipes_data : Registry) (tags : Tags) (item : J) (quantity : Rat) :
    Analysis :=
  let rs := calculate_with_steps recipes_data tags item quantity
  { target := item, quantity := quantity,
    total_raw_materials :=
      rs.1.mergeSort (fun x y => sortKeyJ x.1 ≤ sortKeyJ y.1),
    steps := rs.2 }

/-- to_mermaid helper ensure_item: first-encounter item collection. -/
def ensure_item (items : List J) (it : J) : List J :=
  if it ∈ items then items else items ++ [it]

/-- The distinct items appearing as any step product or ingredient, in
first-encounter order (products before their ingredients, steps in order). -/
def mermaid_items (steps : List Step) : List J :=
  steps.foldl
    (fun items st =>
      st.ingredients.foldl (fun acc ing => ensure_item acc ing.1)
        (ensure_item items st.item))
    []

/-- Node identifier assignment n1, n2, ... in first-encounter order (the
id_map dict comprehension over the collected items). -/
def nodeId (items : List J) (it : J) : String :=
  "n" ++ toString (items.indexOf it + 1)

/-- Right strip of all trailing zeros, then all trailing dots. -/
def stripTrail (sv : String) : String :=
  let l1 := (sv.data.reverse.dropWhile (fun c => c = '0')).reverse
  String.mk ((l1.reverse.dropWhile (fun c => c = '.')).reverse)

/-- Four-digit zero padding of the fractional part. -/
def pad4 (n : Nat) : String :=
  if n < 10 then "000" ++ toString n
  else if n < 100 then "00" ++ toString n
  else if n < 1000 then "0" ++ toString n
  else toString n

/-- Rational floor through integer floor division. -/
def ratFloor (v : Rat) : Int := v.num.fdiv (v.den : Int)

/-- Python round(): round half to even (banker rounding). -/
def pyRound (v : Rat) : Int :=
  let fl : Int := ratFloor v
  let fr : Rat := v - (fl : Rat)
  if fr < 1 / 2 then fl
  else if 1 / 2 < fr then fl + 1
  else if fl % 2 = 0 then fl else fl + 1

/-- to_mermaid.fmt_qty on the exact rational reading: near-integral values
(within 1e-9) render as the nearest integer without a decimal point,
others to four decimals with trailing zeros trimmed.  The Python
isinstance(v, int) fast path renders integral values identically, so it is
merged into the near-integral branch. -/
def fmt_qty (v : Rat) : String :=
  if |v - ((pyRound v : Int) : Rat)| < (1 : Rat) / 1000000000 then
    toString (pyRound v)
  else
    let n : Int := pyRound (v * 10000)
    let sign := if n < 0 then "-" else ""
    let m := n.natAbs
    stripTrail (sign ++ toString (m / 10000) ++ "." ++ pad4 (m % 10000))

/-- to_mermaid.esc_label: replace double quotes by single quotes (39 is the
single-quote character). -/
def esc_label (sv : String) : String :=
  String.mk (sv.data.map (fun c => if c = '"' then Char.ofNat 39 else c))

/-- Item label text: the Python code formats the raw item id string (a
non-string item would raise in esc_label; every claim uses string ids). -/
def jLabel : J → String
  | .s v => v
  | _ => ""

/-- The labeled directed edges, one per (step, ingredient) pair:
(ingredient item, formatted required quantity, produced item). -/
def mermaid_edges (steps : List Step) : List (J × String × J) :=
  steps.flatMap (fun st =>
    st.ingredients.map (fun ing => (ing.1, fmt_qty ing.2, st.item)))

/-- exporter.to_mermaid: flowchart header, one labeled node line per item,
one labeled edge line per (step, ingredient) pair. -/
def to_mermaid (analysis : Analysis) : String :=
  let steps := analysis.steps
  let items := mermaid_items steps
  let nodeLines := items.map (fun it =>
    "  " ++ nodeId items it ++ "[\"" ++ esc_label (jLabel it) ++ "\"]")
  let edgeLines := (mermaid_edges steps).map (fun e =>
    "  " ++ nodeId items e.1 ++ " -- x" ++ e.2.1 ++ " --> " ++ nodeId items e.2.2)
  String.intercalate "\n" ("flowchart LR" :: (nodeLines ++ edgeLines))

/-- parser.load_recipes score tuples (is_parseable, type_priority,
source_rank), compared like Python tuples. -/
abbrev Score := Nat × Nat × Nat

/-- Strict lexicographic greater-than on score tuples (Python tuple >). -/
def scoreGt (x y : Score) : Bool :=
  if x.1 ≠ y.1 then decide (y.1 < x.1)
  else if x.2.1 ≠ y.2.1 then decide (y.2.1 < x.2.1)
  else decide (y.2.2 < x.2.2)

/-- parser._extract_result_item: result as a bare string, a dict item/id
(Python or-chain, so falsy values fall through to id), then the output
key, then the first element of a results list; J.null models Python None. -/
def extract_result_item (data : J) : J :=
  let fromRes : Option J :=
    match data.get "result" with
    | some (.s v) => some (.s v)
    | some (.o rf) => some (pyOr (jGetDef rf "item") (jGetDef rf "id"))
    | _ => none
  match fromRes with
  | some r => r
  | none =>
    let fromOut : Option J :=
      match data.get "output" with
      | some (.s v) => some (.s v)
      | some (.o rf) => some (pyOr (jGetDef rf "item") (jGetDef rf "id"))
      | _ => none
    match fromOut with
    | some r => r
    | none =>
      match data.get "results" with
      | some (.a (first :: _)) =>
        match first with
        | .s v => .s v
        | .o rf => pyOr (jGetDef rf "item") (jGetDef rf "id")
        | _ => .null
      | _ => .null

/-- parser._score_tuple: structural parseability (shaped pattern+key,
shapeless ingredients list, or inscriber dict with a middle slot), then
type priority (2 supported crafting, 1 other minecraft:*, 0 otherwise),
then the source rank (1 on-disk, 0 jar). -/
def score_tuple (data : J) (source_rank : Nat) : Score :=
  let rt := rtypeOf data
  let has_shaped :=
    (match data.get "pattern" with | some (.a _) => true | _ => false)
      && (match data.get "key" with | some (.o _) => true | _ => false)
  let has_shapeless :=
    match data.get "ingredients" with | some (.a _) => true | _ => false
  let has_inscriber :=
    (match rt with | .s v => v.endsWith ":inscriber" | _ => false)
      && (match data.get "ingredients" with
          | some (.o fl) =>
            (match assocGet fl "middle" with
             | some .null => false
             | some _ => true
             | none => false)
          | _ => false)
  let parseable := has_shaped || has_shapeless || has_inscriber
  let tprio : Nat :=
    if parseable && supportedType rt then 2
    else if (match rt with | .s v => v.startsWith "minecraft:" | _ => false) then 1
    else 0
  ((if parseable then 1 else 0), tprio, source_rank)

/-- The best-candidate map: output item to (score, recipe dict). -/
abbrev BestMap := List (J × (Score × J))

/-- parser.load_recipes._consider: keep the candidate when the item is new
or its score is strictly greater (ties keep the earlier candidate). -/
def consider (best : BestMap) (out_item : J) (data : J) (source_rank : Nat) :
    BestMap :=
  let score := score_tuple data source_rank
  match assocGet best out_item with
  | none => assocSet best out_item (score, data)
  | some prev =>
    if scoreGt score prev.1 then assocSet best out_item (score, data) else best

/-- One parsed declaration file: extract the output item and consider it
when truthy (empty-string and null outputs are skipped). -/
def considerFile (best : BestMap) (data : J) (source_rank : Nat) : BestMap :=
  let out := extract_result_item data
  if out.truthy then consider best out data source_rank else best

/-- Substring search on character lists (Python in operator on str). -/
def prefixAt : List Char → List Char → Bool
  | [], _ => true
  | _ :: _, [] => false
  | c :: p, d :: t => c = d && prefixAt p t

/-- Python: pat in s. -/
def containsSubL (pat : List Char) : List Char → Bool
  | [] => prefixAt pat []
  | c :: t => prefixAt pat (c :: t) || containsSubL pat t

/-- Python: pat in s for strings. -/
def containsSub (sv pat : String) : Bool := containsSubL pat.data sv.data

/-- The jar-entry name filter of load_recipes: .json entries under data/
with a recipes or recipe segment and no advancement segment. -/
def jarEntryOk (name : String) : Bool :=
  name.endsWith ".json" && name.startsWith "data/"
    && (containsSub name "/recipes/" || containsSub name "/recipe/")
    && !(containsSub name "/advancement/" || containsSub name "/advancements/")

/-- Path comparison used to sort discovered files (sorted by str(path)). -/
def pathLe {β : Type} (x y : String × β) : Bool := decide (x.1 ≤ y.1)

/-- The jar phase of load_recipes: jars are scanned in the order the mods
directory lists them (Python glob order, not sorted); unreadable jars and
unparseable entries are skipped; entries are considered with rank 0. -/
def loadJarPhase (best : BestMap)
    (jars : List (String × Option (List (String × Option J)))) : BestMap :=
  jars.foldl
    (fun b jar =>
      match jar.2 with
      | none => b
      | some entries =>
        entries.foldl
          (fun b2 e =>
            if jarEntryOk e.1 then
              match e.2 with
              | none => b2
              | some data => considerFile b2 data 0
            else b2)
          b)
    best

/-- The KubeJS script phase: script files sorted by path; each file
contributes the parsed event.custom blocks (the pure text extraction is
applied per file before this phase); only dict blocks whose type ends in
:inscriber and whose result item is truthy are considered, with rank 1. -/
def loadScriptPhase (best : BestMap)
    (scripts : List (String × List (Option J))) : BestMap :=
  (scripts.mergeSort pathLe).foldl
    (fun b sf =>
      sf.2.foldl
        (fun b2 blk =>
          match blk with
          | some (.o fl) =>
            if jEndsInscriber (rtypeOf (.o fl)) then
              considerFile b2 (.o fl) 1
            else b2
          | _ => b2)
        b)
    best

/-- Materialize the winning candidates into the registry, keeping the
first-consideration insertion order of the best map. -/
def materialize (best : BestMap) : Registry := best.map (fun p => (p.1, p.2.2))

/-- parser._has_parseable: the stored recipe is truthy and its raw type is
one of the supported crafting kinds. -/
def has_parseable (recipes : Registry) (item : String) : Bool :=
  match assocGet recipes (.s item) with
  | some r =>
    r.truthy
      && (match r.get "type" with
          | some t => supportedType t
          | none => false)
  | none => false

/-- Synthetic fallback: minecraft:stick (4) from oak planks. -/
def stickFallback : J :=
  .o [("type", .s "minecraft:crafting_shaped"),
      ("pattern", .a [.s "X", .s "X"]),
      ("key", .o [("X", .o [("item", .s "minecraft:oak_planks")])]),
      ("result", .o [("item", .s "minecraft:stick"), ("count", .i 4)])]

/-- Synthetic fallback: minecraft:oak_planks (4) from one oak log. -/
def planksFallback : J :=
  .o [("type", .s "minecraft:crafting_shapeless"),
      ("ingredients", .a [.o [("item", .s "minecraft:oak_log")]]),
      ("result", .o [("item", .s "minecraft:oak_planks"), ("count", .i 4)])]

/-- Synthetic fallback: minecraft:diamond_pickaxe from 3 diamond, 2 stick. -/
def pickaxeFallback : J :=
  .o [("type", .s "minecraft:crafting_shaped"),
      ("pattern", .a [.s "XXX", .s " Y ", .s " Y "]),
      ("key", .o [("X", .o [("item", .s "minecraft:diamond")]),
                  ("Y", .o [("item", .s "minecraft:stick")])]),
      ("result", .o [("item", .s "minecraft:diamond_pickaxe"), ("count", .i 1)])]

/-- Synthetic placeholder fallback for the AE2 controller. -/
def controllerFallback : J :=
  .o [("type", .s "minecraft:crafting_shaped"),
      ("pattern", .a [.s "XAX", .s "ASA", .s "XAX"]),
      ("key", .o [("X", .o [("item", .s "ae2:fluix_block")]),
                  ("A", .o [("item", .s "ae2:engineering_processor")]),
                  ("S", .o [("item", .s "ae2:sky_stone_block")])]),
      ("result", .o [("item", .s "ae2:controller"), ("count", .i 1)]),
      ("x_mcbom_placeholder", .b true)]

/-- parser.load_recipes on discovered declaration sources: loose files are
deduplicated and sorted by path before consideration (rank 1); jars are
scanned in given (filesystem) order (rank 0); script blocks are scanned
with files sorted by path (rank 1); then the synthetic fallbacks are
injected.  File discovery and JSON/text decoding are the input boundary:
each source arrives as its parsed declaration(s). -/
def load_recipes (loose : List (String × J))
    (jars : List (String × Option (List (String × Option J))))
    (scripts : List (String × List (Option J))) : Registry :=
  let b1 := (loose.mergeSort pathLe).foldl (fun b f => considerFile b f.2 1) []
  let b2 := loadJarPhase b1 jars
  let b3 := loadScriptPhase b2 scripts
  let recipes := materialize b3
  let recipes :=
    if has_parseable recipes "minecraft:stick" then recipes
    else assocSet recipes (.s "minecraft:stick") stickFallback
  let recipes :=
    if has_parseable recipes "minecraft:oak_planks" then recipes
    else assocSet recipes (.s "minecraft:oak_planks") planksFallback
  let recipes :=
    if has_parseable recipes "minecraft:diamond_pickaxe" then recipes
    else assocSet recipes (.s "minecraft:diamond_pickaxe") pickaxeFallback
  if !((assocGet recipes (.s "ae2:controller")).getD .null).truthy
      && !((assocGet recipes (.s "appliedenergistics2:controller")).getD .null).truthy
  then assocSet recipes (.s "ae2:controller") controllerFallback
  else recipes

/-- calculate_raw_materials instrumented for Python division semantics:
the boolean is true when no division by zero is performed anywhere in the
run (the two division sites are quantity / output_count on entering a
recipe and 1 / quantity at the memo store).  When the flag is true the
counter and memo agree with calcRawF; when false, Python would have raised
ZeroDivisionError at the first such site. -/
def calcRawSafeF (recipes : Registry) (tags : Tags) :
    Nat → J → Rat → List J → Memo → Option (Cnt × Memo × Bool)
  | 0, _, _, _, _ => none
  | fuel + 1, item0, quantity, visited, memo =>
    let item := canon item0
    match assocGet memo item with
    | some base => some (scale_counter base quantity, memo, true)
    | none =>
      if item ∈ visited then some ([(item, quantity)], memo, true)
      else
        match assocGet recipes item with
        | none => some ([(item, quantity)], memo, true)
        | some recipe =>
          let ok1 := decide (output_count recipe ≠ 0)
          let multiplier := quantity / ((output_count recipe : Int) : Rat)
          let ings := get_ingredients_from_recipe tags recipe
          if ings.isEmpty && !supportedType (rtypeOf recipe) then
            some ([(item, quantity)], memo, ok1)
          else
            match ings.foldl
              (fun acc ing =>
                acc.bind (fun rm =>
                  (calcRawSafeF recipes tags fuel (canon ing.1)
                      ((ing.2 : Rat) * multiplier) (item :: visited) rm.2.1).map
                    (fun sub =>
                      (Cnt.update rm.1 sub.1, sub.2.1, rm.2.2 && sub.2.2))))
              (some (([] : Cnt), memo, true)) with
            | none => none
            | some (raw, m', okc) =>
              some (raw, assocSet m' item (scale_counter raw (1 / quantity)),
                ok1 && okc && decide (quantity ≠ 0))

/-- calculate_with_steps instrumented the same way; its only division site
is quantity / output_count on entering a recipe (it stores no memo). -/
def calcStepsSafeF (recipes : Registry) (tags : Tags) :
    Nat → J → Rat → List J → Option (Cnt × List Step × Bool)
  | 0, _, _, _ => none
  | fuel + 1, item0, quantity, visited =>
    let item := canon item0
    if item ∈ visited then some ([(item, quantity)], [], true)
    else
      match assocGet recipes item with
      | none => some ([(item, quantity)], [], true)
      | some recipe =>
        let ok1 := decide (output_count recipe ≠ 0)
        let multiplier := quantity / ((output_count recipe : Int) : Rat)
        let ings := get_ingredients_from_recipe tags recipe
        if ings.isEmpty then some ([(item, quantity)], [], ok1)
        else
          let cur : Step :=
            { item := item, count := quantity,
              recipe_type := (recipe.get "type").getD (.s "unknown"),
              ingredients :=
                ings.map (fun ing => (canon ing.1, (ing.2 : Rat) * multiplier)) }
          (ings.foldl
            (fun acc ing =>
              acc.bind (fun rs =>
                (calcStepsSafeF recipes tags fuel (canon ing.1)
                    ((ing.2 : Rat) * multiplier) (item :: visited)).map
                  (fun sub =>
                    (Cnt.update rs.1 sub.1, rs.2.1 ++ sub.2.1,
                      rs.2.2 && sub.2.2))))
            (some (([] : Cnt), [cur], ok1)))

/-- One ingredient-demand edge: looking the key up in the registry yields a
recipe one of whose extracted ingredients canonicalizes to y. -/
def reqStep (recipes : Registry) (tags : Tags) (x y : J) : Prop :=
  ∃ r, assocGet recipes x = some r ∧
    ∃ p ∈ get_ingredients_from_recipe tags r, canon p.1 = y

/-- A demand chain x → l₁ → ... → lₙ → y through successive reqStep edges. -/
def ReqChain (recipes : Registry) (tags : Tags) : J → List J → J → Prop
  | x, [], y => reqStep recipes tags x y
  | x, z :: l, y => reqStep recipes tags x z ∧ ReqChain recipes tags z l y

/-- Number of registry keys not yet on the descent path: the decreasing
measure of the recursion (each descent adds a registry key to the path). -/
def unvisited (recipes : Registry) (visited : List J) : Nat :=
  ((recipes.map Prod.fst).filter (fun k => k ∉ visited)).length

/-- The per-unit raw vector of an item as the steps-producing traversal
computes it from a fresh path (used to state memo compatibility). -/
def stepsUnit (recipes : Registry) (tags : Tags) (k : J) : Cnt :=
  ((calcStepsF recipes tags (fuelFor recipes) k 1 []).getD ([], [])).1

/-- Memo compatibility: every stored entry is the per-unit raw vector that
the steps traversal computes for its key from a fresh path. -/
def MemoCompat (recipes : Registry) (tags : Tags) (M : Memo) : Prop :=
  ∀ k u, assocGet M k = some u →
    ∀ j, Cnt.get u j = Cnt.get (stepsUnit recipes tags k) j

/-- Scale one recorded step by a factor (produced and required counts). -/
def scaleStep (q : Rat) (st : Step) : Step :=
  { item := st.item, count := q * st.count, recipe_type := st.recipe_type,
    ingredients := st.ingredients.map (fun p => (p.1, q * p.2)) }

/-- One candidate in consideration order: (output item, declaration, rank). -/
abbrev Cand := J × J × Nat

/-- The candidates a loose-file list contributes, in sorted path order,
skipping declarations with a falsy output item. -/
def looseCands (loose : List (String × J)) : List Cand :=
  (loose.mergeSort pathLe).filterMap (fun fp =>
    let out := extract_result_item fp.2
    if out.truthy then some (out, fp.2, 1) else none)

/-- The candidates the jar phase contributes, in given jar order. -/
def jarCands (jars : List (String × Option (List (String × Option J)))) :
    List Cand :=
  jars.flatMap (fun jar =>
    match jar.2 with
    | none => []
    | some entries =>
      entries.filterMap (fun e =>
        if jarEntryOk e.1 then
          match e.2 with
          | none => none
          | some data =>
            let out := extract_result_item data
            if out.truthy then some (out, data, 0) else none
        else none))

/-- The candidates the script phase contributes, files in sorted order. -/
def scriptCands (scripts : List (String × List (Option J))) : List Cand :=
  (scripts.mergeSort pathLe).flatMap (fun sf =>
    sf.2.filterMap (fun blk =>
      match blk with
      | some (.o fl) =>
        if jEndsInscriber (rtypeOf (.o fl)) then
          let out := extract_result_item (.o fl)
          if out.truthy then some (out, .o fl, 1) else none
        else none
      | _ => none))

/-- The scored candidates for one output item, in consideration order. -/
def candsFor (cs : List Cand) (it : J) : List (Score × J) :=
  (cs.filter (fun c => c.1 = it)).map (fun c => (score_tuple c.2.1 c.2.2, c.2.1))

/-- The selection rule on one scored candidate list: keep the incumbent
unless a strictly greater score arrives. -/
def selectSpec (l : List (Score × J)) : Option (Score × J) :=
  l.foldl
    (fun acc c =>
      match acc with
      | none => some c
      | some p => if scoreGt c.1 p.1 then some c else some p)
    none

/-- The stick recipe of the end-to-end chain: output count 4, 2 planks. -/
def stickChainRecipe : J :=
  .o [("type", .s "minecraft:crafting_shaped"),
      ("pattern", .a [.s "X", .s "X"]),
      ("key", .o [("X", .o [("item", .s "plank")])]),
      ("result", .o [("item", .s "stick"), ("count", .i 4)])]

/-- The plank recipe of the end-to-end chain: output count 4, 1 log. -/
def plankChainRecipe : J :=
  .o [("type", .s "minecraft:crafting_shapeless"),
      ("ingredients", .a [.o [("item", .s "log")]]),
      ("result", .o [("item", .s "plank"), ("count", .i 4)])]

/-- The registry containing exactly the stick and plank chain recipes. -/
def chainReg : Registry :=
  [(.s "stick", stickChainRecipe), (.s "plank", plankChainRecipe)]

/-- A registry with a direct self-cycle: crafting a needs a (count 1),
output count 2. -/
def cycReg : Registry :=
  [(.s "a",
    .o [("type", .s "minecraft:crafting_shapeless"),
        ("ingredients", .a [.o [("item", .s "a")]]),
        ("result", .o [("item", .s "a"), ("count", .i 2)])])]

/-- A recipe that parses but whose shape no extraction strategy recognizes,
while its declared type claims a supported kind. -/
def emptyShapedRecipe : J :=
  .o [("type", .s "minecraft:crafting_shaped"),
      ("result", .o [("item", .s "m:x"), ("count", .i 1)])]

/-- Registry mapping m:x to the unrecognized-shape supported-type recipe. -/
def emptyShapedReg : Registry := [(.s "m:x", emptyShapedRecipe)]

/-- A registry whose recipes have positive output counts but one extracted
ingredient count of zero (count 0 of item b, then count 2 of item b). -/
def zeroCountReg : Registry :=
  [(.s "za",
    .o [("type", .s "minecraft:crafting_shapeless"),
        ("ingredients",
          .a [.o [("item", .s "zb"), ("count", .i 0)],
              .o [("item", .s "zb"), ("count", .i 2)]]),
        ("result", .o [("item", .s "za"), ("count", .i 1)])]),
   (.s "zb",
    .o [("type", .s "minecraft:crafting_shapeless"),
        ("ingredients", .a [.o [("item", .s "zc")]]),
        ("result", .o [("item", .s "zb"), ("count", .i 1)])])]

/-- A cyclic diamond registry on which the memoized totals-only traversal
and the steps traversal disagree: da needs db and dc, db needs dd,
dc needs dd, dd needs db (a db-dd cycle entered from two paths). -/
def diamondCycReg : Registry :=
  [(.s "da",
    .o [("type", .s "minecraft:crafting_shapeless"),
        ("ingredients", .a [.o [("item", .s "db")], .o [("item", .s "dc")]]),
        ("result", .o [("item", .s "da"), ("count", .i 1)])]),
   (.s "db",
    .o [("type", .s "minecraft:crafting_shapeless"),
        ("ingredients", .a [.o [("item", .s "dd")]]),
        ("result", .o [("item", .s "db"), ("count", .i 1)])]),
   (.s "dc",
    .o [("type", .s "minecraft:crafting_shapeless"),
        ("ingredients", .a [.o [("item", .s "dd")]]),
        ("result", .o [("item", .s "dc"), ("count", .i 1)])]),
   (.s "dd",
    .o [("type", .s "minecraft:crafting_shapeless"),
        ("ingredients", .a [.o [("item", .s "db")]]),
        ("result", .o [("item", .s "dd"), ("count", .i 1)])])]

/-- An unparseable non-minecraft declaration for item m:i, variant 1. -/
def jarDeclA : J :=
  .o [("type", .s "mod:weird"),
      ("result", .o [("item", .s "m:i"), ("count", .i 1)]),
      ("tag_a", .b true)]

/-- An unparseable non-minecraft declaration for item m:i, variant 2
(same score as variant 1, different content). -/
def jarDeclB : J :=
  .o [("type", .s "mod:weird"),
      ("result", .o [("item", .s "m:i"), ("count", .i 1)]),
      ("tag_b", .b true)]

/-- Two jars each holding one equal-scoring declaration for m:i. -/
def jarA : String × Option (List (String × Option J)) :=
  ("a.jar", some [("data/m/recipes/r.json", some jarDeclA)])

/-- The second jar of the pair. -/
def jarB : String × Option (List (String × Option J)) :=
  ("b.jar", some [("data/m/recipes/r.json", some jarDeclB)])

/-- An unsupported-schema recipe (type not recognized, no ingredients)
whose declared output count is zero: resolving it divides by zero before
the unsupported-schema check. -/
def mzReg : Registry :=
  [(.s "m:z", .o [("type", .s "mod:w"),
      ("output", .o [("item", .s "m:z"), ("count", .i 0)])])]

/-- A tiny alias-exercising registry: one recipe keyed under the canonical
ae2 namespace. -/
def aliasReg : Registry :=
  [(.s "ae2:controller",
    .o [("type", .s "minecraft:crafting_shapeless"),
        ("ingredients", .a [.o [("item", .s "ae2:fluix_block")]]),
        ("result", .o [("item", .s "ae2:controller"), ("count", .i 1)])])]

/-! Basic lemmas about association lists and counters. -/

theorem assocGet_mem {α : Type} [DecidableEq α] {β : Type}
    {l : List (α × β)} {k : α} {v : β} (h : assocGet l k = some v) :
    (k, v) ∈ l := by
  induction l with
  | nil => simp [assocGet] at h
  | cons p t ih =>
    obtain ⟨k', v'⟩ := p
    by_cases hk : k' = k
    · subst hk
      simp [assocGet] at h
      simp [h]
    · simp [assocGet, hk] at h
      exact List.mem_cons_of_mem _ (ih h)

theorem assocGet_assocSet_self {α : Type} [DecidableEq α] {β : Type}
    (l : List (α × β)) (k : α) (v : β) :
    assocGet (assocSet l k v) k = some v := by
  induction l with
  | nil => simp [assocSet, assocGet]
  | cons p t ih =>
    obtain ⟨k', v'⟩ := p
    by_cases hk : k' = k
    · subst hk; simp [assocSet, assocGet]
    · simp [assocSet, assocGet, hk, ih]

theorem assocGet_assocSet_ne {α : Type} [DecidableEq α] {β : Type}
    (l : List (α × β)) (k j : α) (v : β) (hj : j ≠ k) :
    assocGet (assocSet l k v) j = assocGet l j := by
  induction l with
  | nil => simp [assocSet, assocGet, Ne.symm hj]
  | cons p t ih =>
    obtain ⟨k', v'⟩ := p
    by_cases hk : k' = k
    · subst hk
      simp [assocSet, assocGet, Ne.symm hj]
    · simp [assocSet, assocGet, hk, ih]

theorem Cnt.get_nil (j : J) : Cnt.get [] j = 0 := rfl

theorem Cnt.get_cons (k : J) (v : Rat) (t : Cnt) (j : J) :
    Cnt.get ((k, v) :: t) j = (if k = j then v else 0) + Cnt.get t j := by
  simp [Cnt.get]

theorem Cnt.get_single (k : J) (v : Rat) (j : J) :
    Cnt.get [(k, v)] j = if k = j then v else 0 := by
  simp [Cnt.get]

theorem Cnt.get_addOne (c : Cnt) (k : J) (v : Rat) (j : J) :
    Cnt.get (Cnt.addOne c k v) j = Cnt.get c j + (if k = j then v else 0) := by
  induction c with
  | nil => simp [Cnt.addOne, Cnt.get]
  | cons p t ih =>
    obtain ⟨k', v'⟩ := p
    by_cases hk : k' = k
    · subst hk
      rw [show Cnt.addOne ((k', v') :: t) k' v = (k', v' + v) :: t by
        simp [Cnt.addOne]]
      rw [Cnt.get_cons, Cnt.get_cons]
      by_cases hj : k' = j <;> simp [hj] <;> ring
    · rw [show Cnt.addOne ((k', v') :: t) k v = (k', v') :: Cnt.addOne t k v by
        simp [Cnt.addOne, hk]]
      rw [Cnt.get_cons, Cnt.get_cons, ih]
      ring

theorem Cnt.get_update (a b : Cnt) (j : J) :
    Cnt.get (Cnt.update a b) j = Cnt.get a j + Cnt.get b j := by
  induction b generalizing a with
  | nil => simp [Cnt.update, Cnt.get]
  | cons p t ih =>
    obtain ⟨k, v⟩ := p
    have step : Cnt.update a ((k, v) :: t) = Cnt.update (Cnt.addOne a k v) t := by
      simp [Cnt.update]
    rw [step, ih, Cnt.get_addOne, Cnt.get_cons]
    ring

theorem Cnt.get_scale (c : Cnt) (f : Rat) (j : J) :
    Cnt.get (scale_counter c f) j = Cnt.get c j * f := by
  induction c with
  | nil => simp [scale_counter, Cnt.get]
  | cons p t ih =>
    obtain ⟨k, v⟩ := p
    rw [show scale_counter ((k, v) :: t) f = (k, v * f) :: scale_counter t f from rfl]
    rw [Cnt.get_cons, Cnt.get_cons, ih]
    by_cases hj : k = j <;> simp [hj] <;> ring

theorem scale_scale (c : Cnt) (f g : Rat) :
    scale_counter (scale_counter c f) g = scale_counter c (f * g) := by
  induction c with
  | nil => rfl
  | cons p t ih =>
    obtain ⟨k, v⟩ := p
    simp [scale_counter, ih, mul_assoc]

theorem scale_congr (c : Cnt) {f g : Rat} (h : f = g) :
    scale_counter c f = scale_counter c g := by rw [h]

theorem scale_one (c : Cnt) : scale_counter c 1 = c := by
  induction c with
  | nil => rfl
  | cons p t ih => obtain ⟨k, v⟩ := p; simp_all [scale_counter]

theorem addOne_scale (a : Cnt) (k : J) (v f : Rat) :
    Cnt.addOne (scale_counter a f) k (v * f) = scale_counter (Cnt.addOne a k v) f := by
  induction a with
  | nil => simp [Cnt.addOne, scale_counter]
  | cons p t ih =>
    obtain ⟨k', v'⟩ := p
    have esc : scale_counter ((k', v') :: t) f = (k', v' * f) :: scale_counter t f := rfl
    by_cases hk : k' = k
    · subst hk
      rw [esc]
      have e1 : Cnt.addOne ((k', v' * f) :: scale_counter t f) k' (v * f)
          = (k', v' * f + v * f) :: scale_counter t f := by simp [Cnt.addOne]
      have e2 : Cnt.addOne ((k', v') :: t) k' v = (k', v' + v) :: t := by
        simp [Cnt.addOne]
      rw [e1, e2, show scale_counter ((k', v' + v) :: t) f
        = (k', (v' + v) * f) :: scale_counter t f from rfl, add_mul]
    · rw [esc]
      have e1 : Cnt.addOne ((k', v' * f) :: scale_counter t f) k (v * f)
          = (k', v' * f) :: Cnt.addOne (scale_counter t f) k (v * f) := by
        simp [Cnt.addOne, hk]
      have e2 : Cnt.addOne ((k', v') :: t) k v = (k', v') :: Cnt.addOne t k v := by
        simp [Cnt.addOne, hk]
      rw [e1, e2, show scale_counter ((k', v') :: Cnt.addOne t k v) f
        = (k', v' * f) :: scale_counter (Cnt.addOne t k v) f from rfl, ih]

theorem update_scale (a b : Cnt) (f : Rat) :
    Cnt.update (scale_counter a f) (scale_counter b f) = scale_counter (Cnt.update a b) f := by
  induction b generalizing a with
  | nil => simp [Cnt.update, scale_counter]
  | cons p t ih =>
    obtain ⟨k, v⟩ := p
    have h1 : Cnt.update (scale_counter a f) (scale_counter ((k, v) :: t) f)
        = Cnt.update (Cnt.addOne (scale_counter a f) k (v * f)) (scale_counter t f) := by
      simp [Cnt.update, scale_counter]
    rw [h1, addOne_scale, ih]
    have h2 : Cnt.update a ((k, v) :: t) = Cnt.update (Cnt.addOne a k v) t := by
      simp [Cnt.update]
    rw [h2]

/-- The factor identity behind memo-store scale invariance: for q nonzero,
q * (1 / (q * t)) = 1 / t, including the t = 0 convention. -/
theorem factor_identity {q : Rat} (hq : q ≠ 0) (t : Rat) :
    q * (1 / (q * t)) = 1 / t := by
  rw [one_div, one_div, mul_inv, ← mul_assoc, mul_inv_cancel₀ hq, one_mul]

/-! Canonicalization lemmas. -/

theorem splitColon_sound {l : List Char} {p r : List Char}
    (h : splitColon l = some (p, r)) : ':' ∉ p ∧ l = p ++ ':' :: r := by
  induction l generalizing p r with
  | nil => simp [splitColon] at h
  | cons c cs ih =>
    by_cases hc : c = ':'
    · subst hc
      simp [splitColon] at h
      obtain ⟨hp, hr⟩ := h
      subst hp; subst hr
      simp
    · simp only [splitColon, if_neg hc] at h
      cases hsp : splitColon cs with
      | none => rw [hsp] at h; simp at h
      | some pr =>
        obtain ⟨p', r'⟩ := pr
        rw [hsp] at h
        simp at h
        obtain ⟨hp, hr⟩ := h
        obtain ⟨h1, h2⟩ := ih hsp
        subst hr
        rw [← hp]
        constructor
        · intro hm
          rcases List.mem_cons.mp hm with h3 | h3
          · exact hc h3.symm
          · exact h1 h3
        · simp [h2]

theorem splitColon_append {p : List Char} (hp : ':' ∉ p) (r : List Char) :
    splitColon (p ++ ':' :: r) = some (p, r) := by
  induction p with
  | nil => simp [splitColon]
  | cons c cs ih =>
    have hc : c ≠ ':' := fun h => hp (by simp [h])
    have hcs : ':' ∉ cs := fun h => hp (List.mem_cons_of_mem _ h)
    simp [splitColon, hc, ih hcs]

/-- The alias table maps every namespace to a colon-free, fixed-point
namespace. -/
theorem aliasGet_fixed (ns : String) :
    let ns2 := (assocGet NS_ALIASES ns).getD ns
    ((':' ∈ ns.data → False) → ':' ∉ ns2.data) ∧
      (assocGet NS_ALIASES ns2).getD ns2 = ns2 := by
  by_cases h1 : ns = "appliedenergistics2"
  · subst h1; constructor <;> decide
  · by_cases h2 : ns = "ae2"
    · subst h2; constructor <;> decide
    · have : assocGet NS_ALIASES ns = none := by
        simp [NS_ALIASES, assocGet, Ne.symm h1, Ne.symm h2]
      constructor
      · intro hcf
        simpa [this] using hcf
      · simp [this]

theorem canonStr_idem (v : String) : canonStr (canonStr v) = canonStr v := by
  cases hsp : splitColon v.data with
  | none => simp [canonStr, hsp]
  | some pr =>
    obtain ⟨ns, name⟩ := pr
    obtain ⟨hnc, _⟩ := splitColon_sound hsp
    have hfix := aliasGet_fixed (String.mk ns)
    simp only at hfix
    obtain ⟨hcf, hidem⟩ := hfix
    have hnc2 : ':' ∉ ((assocGet NS_ALIASES (String.mk ns)).getD (String.mk ns)).data :=
      hcf (fun hm => hnc hm)
    have h1 : canonStr v =
        String.mk (((assocGet NS_ALIASES (String.mk ns)).getD (String.mk ns)).data
          ++ ':' :: name) := by
      simp [canonStr, hsp]
    rw [h1]
    simp only [canonStr, splitColon_append hnc2 name]
    rw [show String.mk
        (((assocGet NS_ALIASES (String.mk ns)).getD (String.mk ns)).data) =
        (assocGet NS_ALIASES (String.mk ns)).getD (String.mk ns) from rfl]
    rw [hidem]

theorem canon_idem (j : J) : canon (canon j) = canon j := by
  cases j with
  | s v => simp [canon, canonStr_idem]
  | i n => rfl
  | f q => rfl
  | b v => rfl
  | null => rfl
  | a l => rfl
  | o l => rfl

/-- Canonicalizing a declared-alias namespace prefix and its canonical
replacement yields the same id, for every item name. -/
theorem canonStr_alias {alt cn : String}
    (h : assocGet NS_ALIASES alt = some cn) (x : String) :
    canonStr (alt ++ ":" ++ x) = cn ++ ":" ++ x ∧
      canonStr (cn ++ ":" ++ x) = cn ++ ":" ++ x := by
  have hdata : ∀ (a : String), (a ++ ":" ++ x).data = a.data ++ ':' :: x.data := by
    intro a
    rw [String.data_append, String.data_append]
    simp
  have key : ∀ (a b : String), assocGet NS_ALIASES a = some b → ':' ∉ a.data →
      canonStr (a ++ ":" ++ x) = b ++ ":" ++ x := by
    intro a b hab hac
    have hsp : splitColon ((a ++ ":" ++ x).data) = some (a.data, x.data) := by
      rw [hdata a]; exact splitColon_append hac x.data
    simp only [canonStr, hsp]
    rw [show String.mk a.data = a from rfl, hab]
    apply String.ext
    simp [hdata b]
  by_cases h1 : alt = "appliedenergistics2"
  · subst h1
    have hcn : cn = "ae2" := by
      simpa [NS_ALIASES, assocGet] using h.symm
    subst hcn
    exact ⟨key _ _ (by decide) (by decide), key _ _ (by decide) (by decide)⟩
  · by_cases h2 : alt = "ae2"
    · subst h2
      have hcn : cn = "ae2" := by
        simpa [NS_ALIASES, assocGet] using h.symm
      subst hcn
      exact ⟨key _ _ (by decide) (by decide), key _ _ (by decide) (by decide)⟩
    · exfalso
      rw [show assocGet NS_ALIASES alt = none by
        simp [NS_ALIASES, assocGet, Ne.symm h1, Ne.symm h2]] at h
      exact Option.noConfusion h

/-! Generic lemmas about the ingredient folds of the traversals. -/

theorem stepsFold_none (c : J × Int → Option (Cnt × List Step))
    (l : List (J × Int)) :
    l.foldl
      (fun acc ing => acc.bind (fun rs => (c ing).map
        (fun sub => (Cnt.update rs.1 sub.1, rs.2 ++ sub.2))))
      none = none := by
  induction l with
  | nil => rfl
  | cons ing t ih => simpa using ih

theorem stepsFold_some (c : J × Int → Option (Cnt × List Step)) :
    ∀ (l : List (J × Int)) (a out : Cnt × List Step),
      l.foldl
        (fun acc ing => acc.bind (fun rs => (c ing).map
          (fun sub => (Cnt.update rs.1 sub.1, rs.2 ++ sub.2))))
        (some a) = some out →
      ∃ subs : List (Cnt × List Step), l.map c = subs.map some ∧
        (∀ j, Cnt.get out.1 j
          = Cnt.get a.1 j + (subs.map (fun s => Cnt.get s.1 j)).sum) ∧
        out.2 = a.2 ++ (subs.map (fun s => s.2)).flatten := by
  intro l
  induction l with
  | nil =>
    intro a out h
    simp at h
    subst h
    exact ⟨[], by simp, by intro j; simp, by simp⟩
  | cons ing t ih =>
    intro a out h
    simp only [List.foldl_cons] at h
    cases hc : c ing with
    | none =>
      rw [hc] at h
      simp only [Option.map_none', Option.some_bind] at h
      rw [stepsFold_none] at h
      exact Option.noConfusion h
    | some sub =>
      rw [hc] at h
      simp only [Option.map_some', Option.some_bind] at h
      obtain ⟨subs, hmap, hget, hsteps⟩ := ih _ _ h
      refine ⟨sub :: subs, ?_, ?_, ?_⟩
      · simp [hc, hmap]
      · intro j
        rw [hget j]
        simp [Cnt.get_update]
        ring
      · rw [hsteps]
        simp

theorem stepsFold_congr {c c' : J × Int → Option (Cnt × List Step)}
    {l : List (J × Int)} (h : ∀ ing ∈ l, c ing = c' ing) (a : Option (Cnt × List Step)) :
    l.foldl
      (fun acc ing => acc.bind (fun rs => (c ing).map
        (fun sub => (Cnt.update rs.1 sub.1, rs.2 ++ sub.2)))) a
    = l.foldl
      (fun acc ing => acc.bind (fun rs => (c' ing).map
        (fun sub => (Cnt.update rs.1 sub.1, rs.2 ++ sub.2)))) a := by
  induction l generalizing a with
  | nil => rfl
  | cons ing t ih =>
    simp only [List.foldl_cons]
    rw [h ing (by simp)]
    exact ih (fun x hx => h x (List.mem_cons_of_mem _ hx)) _

theorem stepsFold_isSome {c : J × Int → Option (Cnt × List Step)}
    {l : List (J × Int)} (h : ∀ ing ∈ l, (c ing).isSome) (a : Cnt × List Step) :
    (l.foldl
      (fun acc ing => acc.bind (fun rs => (c ing).map
        (fun sub => (Cnt.update rs.1 sub.1, rs.2 ++ sub.2))))
      (some a)).isSome := by
  induction l generalizing a with
  | nil => rfl
  | cons ing t ih =>
    simp only [List.foldl_cons]
    obtain ⟨sub, hsub⟩ := Option.isSome_iff_exists.mp (h ing (by simp))
    rw [hsub]
    simp only [Option.map_some', Option.some_bind]
    exact ih (fun x hx => h x (List.mem_cons_of_mem _ hx)) _

/-- Every child call listed by the fold returns a value. -/
theorem map_eq_map_some {α β : Type} {c : α → Option β} {l : List α}
    {subs : List β} (h : l.map c = subs.map some) :
    ∀ x ∈ l, ∃ s, c x = some s := by
  intro x hx
  have hmem : c x ∈ subs.map some := by
    rw [← h]
    exact List.mem_map_of_mem _ hx
  obtain ⟨s, _, hs⟩ := List.mem_map.mp hmem
  exact ⟨s, hs.symm⟩

/-! The decreasing measure of the recursion. -/

theorem filter_length_mono {p q : J → Bool} (h : ∀ x, p x = true → q x = true) :
    ∀ l : List J, (l.filter p).length ≤ (l.filter q).length := by
  intro l
  induction l with
  | nil => simp
  | cons x t ih =>
    by_cases hp : p x = true
    · simp [List.filter_cons, hp, h x hp]
      omega
    · simp only [List.filter_cons]
      rw [if_neg (by simpa using hp)]
      by_cases hq : q x = true
      · rw [if_pos (by simpa using hq)]
        simp
        omega
      · rw [if_neg (by simpa using hq)]
        exact ih

theorem filter_notmem_cons_lt {x : J} {P : List J} :
    ∀ {l : List J}, x ∈ l → x ∉ P →
      (l.filter (fun k => k ∉ x :: P)).length
        < (l.filter (fun k => k ∉ P)).length := by
  intro l
  induction l with
  | nil => intro h; simp at h
  | cons y t ih =>
    intro hmem hnp
    by_cases hy : y = x
    · subst hy
      rw [List.filter_cons, List.filter_cons]
      rw [if_neg (by simp), if_pos (by simpa using hnp)]
      have hmono := filter_length_mono
        (p := fun k => decide (k ∉ y :: P)) (q := fun k => decide (k ∉ P))
        (by
          intro z hz
          simp at hz ⊢
          exact hz.2) t
      exact Nat.lt_succ_of_le hmono
    · have hmem' : x ∈ t := by
        rcases List.mem_cons.mp hmem with h | h
        · exact absurd h.symm hy
        · exact h
      have hlt := ih hmem' hnp
      rw [List.filter_cons, List.filter_cons]
      by_cases hyp : y ∈ P
      · rw [if_neg (by simp [hyp]), if_neg (by simp [hyp])]
        exact hlt
      · have hy1 : y ∉ x :: P := by
          simp only [List.mem_cons]
          rintro (h | h)
          · exact hy h
          · exact hyp h
        rw [if_pos (by simpa using hy1), if_pos (by simpa using hyp)]
        simpa using hlt

theorem unvisited_lt (recipes : Registry) {item : J} {P : List J}
    (hmem : item ∈ recipes.map Prod.fst) (hnp : item ∉ P) :
    unvisited recipes (item :: P) < unvisited recipes P :=
  filter_notmem_cons_lt hmem hnp

theorem assocGet_key_mem {l : Registry} {k : J} {v : J}
    (h : assocGet l k = some v) : k ∈ l.map Prod.fst :=
  List.mem_map_of_mem Prod.fst (assocGet_mem h)

/-! Fuel monotonicity and sufficiency: the termination theorems. -/

theorem calcStepsF_mono (recipes : Registry) (tags : Tags) :
    ∀ (f1 : Nat) (f2 : Nat), f1 ≤ f2 → ∀ (x : J) (q : Rat) (P : List J)
      (v : Cnt × List Step),
      calcStepsF recipes tags f1 x q P = some v →
      calcStepsF recipes tags f2 x q P = some v := by
  intro f1
  induction f1 with
  | zero =>
    intro f2 _ x q P v h
    exact absurd h (by simp [calcStepsF])
  | succ n ih =>
    intro f2 hle x q P v h
    obtain ⟨m, rfl⟩ : ∃ m, f2 = m + 1 := ⟨f2 - 1, by omega⟩
    have hnm : n ≤ m := by omega
    rw [calcStepsF] at h ⊢
    by_cases hmem : canon x ∈ P
    · rwa [if_pos hmem] at h ⊢
    · rw [if_neg hmem] at h ⊢
      rcases Option.eq_none_or_eq_some (assocGet recipes (canon x)) with hrec | ⟨recipe, hrec⟩
      · rw [hrec] at h ⊢
        exact h
      · rw [hrec] at h ⊢
        dsimp only at h ⊢
        by_cases hempty : (get_ingredients_from_recipe tags recipe).isEmpty = true
        · rw [if_pos hempty] at h ⊢
          exact h
        · rw [if_neg hempty] at h ⊢
          obtain ⟨subs, hmap, -, -⟩ := stepsFold_some _ _ _ _ h
          have hchild : ∀ ing ∈ get_ingredients_from_recipe tags recipe,
              calcStepsF recipes tags n (canon ing.1)
                ((ing.2 : Rat) * (q / ((output_count recipe : Int) : Rat)))
                (canon x :: P)
              = calcStepsF recipes tags m (canon ing.1)
                ((ing.2 : Rat) * (q / ((output_count recipe : Int) : Rat)))
                (canon x :: P) := by
            intro ing hing
            obtain ⟨s, hs⟩ := map_eq_map_some hmap ing hing
            rw [hs, ih m hnm _ _ _ _ hs]
          have heq := @stepsFold_congr (fun ing =>
              calcStepsF recipes tags n (canon ing.1)
                ((ing.2 : Rat) * (q / ((output_count recipe : Int) : Rat)))
                (canon x :: P))
            (fun ing =>
              calcStepsF recipes tags m (canon ing.1)
                ((ing.2 : Rat) * (q / ((output_count recipe : Int) : Rat)))
                (canon x :: P))
            _ hchild
          exact (heq _).symm.trans h

theorem calcStepsF_isSome (recipes : Registry) (tags : Tags) :
    ∀ (fuel : Nat) (x : J) (q : Rat) (P : List J),
      unvisited recipes P < fuel → (calcStepsF recipes tags fuel x q P).isSome := by
  intro fuel
  induction fuel with
  | zero => intro x q P h; exact absurd h (by omega)
  | succ n ih =>
    intro x q P hlt
    rw [calcStepsF]
    by_cases hmem : canon x ∈ P
    · rw [if_pos hmem]; rfl
    · rw [if_neg hmem]
      rcases Option.eq_none_or_eq_some (assocGet recipes (canon x)) with hrec | ⟨recipe, hrec⟩
      · rw [hrec]; rfl
      · rw [hrec]
        dsimp only
        by_cases hempty : (get_ingredients_from_recipe tags recipe).isEmpty = true
        · rw [if_pos hempty]; rfl
        · rw [if_neg hempty]
          have hless : unvisited recipes (canon x :: P) < n := by
            have h1 := unvisited_lt recipes (assocGet_key_mem hrec) hmem
            omega
          exact stepsFold_isSome (fun ing _ => ih (canon ing.1) _ _ hless) _

theorem foldBind_none {α β γ : Type} (g : α → β → Option γ) (h : α → β → γ → α)
    (l : List β) :
    l.foldl (fun acc b => acc.bind (fun a => (g a b).map (h a b))) none = none := by
  induction l with
  | nil => rfl
  | cons b t ih => simpa using ih

theorem foldBind_isSome {α β γ : Type} {g : α → β → Option γ} {h : α → β → γ → α}
    {l : List β} (hg : ∀ a b, b ∈ l → (g a b).isSome) :
    ∀ a0 : α,
      (l.foldl (fun acc b => acc.bind (fun a => (g a b).map (h a b))) (some a0)).isSome := by
  induction l with
  | nil => intro a0; rfl
  | cons b t ih =>
    intro a0
    simp only [List.foldl_cons, Option.some_bind]
    obtain ⟨s, hs⟩ := Option.isSome_iff_exists.mp (hg a0 b (by simp))
    rw [hs]
    simp only [Option.map_some']
    exact ih (fun a x hx => hg a x (List.mem_cons_of_mem _ hx)) _

theorem calcRawF_isSome (recipes : Registry) (tags : Tags) :
    ∀ (fuel : Nat) (x : J) (q : Rat) (P : List J) (M : Memo),
      unvisited recipes P < fuel → (calcRawF recipes tags fuel x q P M).isSome := by
  intro fuel
  induction fuel with
  | zero => intro x q P M h; exact absurd h (by omega)
  | succ n ih =>
    intro x q P M hlt
    rw [calcRawF]
    rcases Option.eq_none_or_eq_some (assocGet M (canon x)) with hmm | ⟨base, hmm⟩
    · rw [hmm]
      dsimp only
      by_cases hmem : canon x ∈ P
      · rw [if_pos hmem]; rfl
      · rw [if_neg hmem]
        rcases Option.eq_none_or_eq_some (assocGet recipes (canon x)) with hrec | ⟨recipe, hrec⟩
        · rw [hrec]; rfl
        · rw [hrec]
          dsimp only
          by_cases hempty : ((get_ingredients_from_recipe tags recipe).isEmpty
              && !supportedType (rtypeOf recipe)) = true
          · rw [if_pos hempty]; rfl
          · rw [if_neg hempty]
            have hless : unvisited recipes (canon x :: P) < n := by
              have h1 := unvisited_lt recipes (assocGet_key_mem hrec) hmem
              omega
            have hfold := foldBind_isSome
              (g := fun (rm : Cnt × Memo) (ing : J × Int) =>
                calcRawF recipes tags n (canon ing.1)
                  ((ing.2 : Rat) * (q / ((output_count recipe : Int) : Rat)))
                  (canon x :: P) rm.2)
              (h := fun rm _ sub => (Cnt.update rm.1 sub.1, sub.2))
              (l := get_ingredients_from_recipe tags recipe)
              (fun a b _ => ih (canon b.1) _ _ a.2 hless)
              (([] : Cnt), M)
            rcases Option.isSome_iff_exists.mp hfold with ⟨out, hout⟩
            rw [hout]
            rfl
    · rw [hmm]; rfl

theorem calcRawSafeF_isSome (recipes : Registry) (tags : Tags) :
    ∀ (fuel : Nat) (x : J) (q : Rat) (P : List J) (M : Memo),
      unvisited recipes P < fuel → (calcRawSafeF recipes tags fuel x q P M).isSome := by
  intro fuel
  induction fuel with
  | zero => intro x q P M h; exact absurd h (by omega)
  | succ n ih =>
    intro x q P M hlt
    rw [calcRawSafeF]
    rcases Option.eq_none_or_eq_some (assocGet M (canon x)) with hmm | ⟨base, hmm⟩
    · rw [hmm]
      dsimp only
      by_cases hmem : canon x ∈ P
      · rw [if_pos hmem]; rfl
      · rw [if_neg hmem]
        rcases Option.eq_none_or_eq_some (assocGet recipes (canon x)) with hrec | ⟨recipe, hrec⟩
        · rw [hrec]; rfl
        · rw [hrec]
          dsimp only
          by_cases hempty : ((get_ingredients_from_recipe tags recipe).isEmpty
              && !supportedType (rtypeOf recipe)) = true
          · rw [if_pos hempty]; rfl
          · rw [if_neg hempty]
            have hless : unvisited recipes (canon x :: P) < n := by
              have h1 := unvisited_lt recipes (assocGet_key_mem hrec) hmem
              omega
            have hfold := foldBind_isSome
              (g := fun (rm : Cnt × Memo × Bool) (ing : J × Int) =>
                calcRawSafeF recipes tags n (canon ing.1)
                  ((ing.2 : Rat) * (q / ((output_count recipe : Int) : Rat)))
                  (canon x :: P) rm.2.1)
              (h := fun rm _ sub =>
                (Cnt.update rm.1 sub.1, sub.2.1, rm.2.2 && sub.2.2))
              (l := get_ingredients_from_recipe tags recipe)
              (fun a b _ => ih (canon b.1) _ _ a.2.1 hless)
              (([] : Cnt), M, true)
            rcases Option.isSome_iff_exists.mp hfold with ⟨out, hout⟩
            rw [hout]
            rfl
    · rw [hmm]; rfl

theorem calcStepsSafeF_isSome (recipes : Registry) (tags : Tags) :
    ∀ (fuel : Nat) (x : J) (q : Rat) (P : List J),
      unvisited recipes P < fuel → (calcStepsSafeF recipes tags fuel x q P).isSome := by
  intro fuel
  induction fuel with
  | zero => intro x q P h; exact absurd h (by omega)
  | succ n ih =>
    intro x q P hlt
    rw [calcStepsSafeF]
    by_cases hmem : canon x ∈ P
    · rw [if_pos hmem]; rfl
    · rw [if_neg hmem]
      rcases Option.eq_none_or_eq_some (assocGet recipes (canon x)) with hrec | ⟨recipe, hrec⟩
      · rw [hrec]; rfl
      · rw [hrec]
        dsimp only
        by_cases hempty : (get_ingredients_from_recipe tags recipe).isEmpty = true
        · rw [if_pos hempty]; rfl
        · rw [if_neg hempty]
          have hless : unvisited recipes (canon x :: P) < n := by
            have h1 := unvisited_lt recipes (assocGet_key_mem hrec) hmem
            omega
          exact foldBind_isSome
            (g := fun (rs : Cnt × List Step × Bool) (ing : J × Int) =>
              calcStepsSafeF recipes tags n (canon ing.1)
                ((ing.2 : Rat) * (q / ((output_count recipe : Int) : Rat)))
                (canon x :: P))
            (h := fun rs _ sub =>
              (Cnt.update rs.1 sub.1, rs.2.1 ++ sub.2.1, rs.2.2 && sub.2.2))
            (fun a b _ => ih (canon b.1) _ _ hless) _

/-! Quantity scaling: the traversals are linear in the requested quantity
and leave the memo evolution unchanged. -/

theorem rawFold_scale (cL cR : Memo → (J × Int) → Option (Cnt × Memo)) (q : Rat)
    (l : List (J × Int))
    (hchild : ∀ m ing, ing ∈ l →
      cL m ing = (cR m ing).map (fun sub => (scale_counter sub.1 q, sub.2))) :
    ∀ aR : Cnt × Memo,
      l.foldl
        (fun acc ing => acc.bind (fun rm => (cL rm.2 ing).map
          (fun sub => (Cnt.update rm.1 sub.1, sub.2))))
        (some (scale_counter aR.1 q, aR.2))
      = (l.foldl
          (fun acc ing => acc.bind (fun rm => (cR rm.2 ing).map
            (fun sub => (Cnt.update rm.1 sub.1, sub.2))))
          (some aR)).map (fun rm => (scale_counter rm.1 q, rm.2)) := by
  induction l with
  | nil => intro aR; rfl
  | cons ing t ih =>
    intro aR
    simp only [List.foldl_cons, Option.some_bind]
    rw [hchild aR.2 ing (by simp)]
    cases hcr : cR aR.2 ing with
    | none =>
      simp only [Option.map_none']
      rw [foldBind_none (g := fun rm ing => cL rm.2 ing)
        (h := fun rm _ sub => (Cnt.update rm.1 sub.1, sub.2))]
      rw [foldBind_none (g := fun rm ing => cR rm.2 ing)
        (h := fun rm _ sub => (Cnt.update rm.1 sub.1, sub.2))]
      rfl
    | some sub =>
      simp only [Option.map_some']
      have hupd : Cnt.update (scale_counter aR.1 q) (scale_counter sub.1 q)
          = scale_counter (Cnt.update aR.1 sub.1) q := update_scale _ _ _
      rw [hupd]
      exact ih (fun m x hx => hchild m x (List.mem_cons_of_mem _ hx))
        (Cnt.update aR.1 sub.1, sub.2)

theorem calcRawF_scale (recipes : Registry) (tags : Tags) :
    ∀ (fuel : Nat) (x : J) (q t : Rat), q ≠ 0 → ∀ (P : List J) (M : Memo),
      calcRawF recipes tags fuel x (q * t) P M
      = (calcRawF recipes tags fuel x t P M).map
          (fun rm => (scale_counter rm.1 q, rm.2)) := by
  intro fuel
  induction fuel with
  | zero => intro x q t hq P M; rfl
  | succ n ih =>
    intro x q t hq P M
    rw [calcRawF, calcRawF]
    rcases Option.eq_none_or_eq_some (assocGet M (canon x)) with hmm | ⟨base, hmm⟩
    · rw [hmm]
      dsimp only
      by_cases hmem : canon x ∈ P
      · rw [if_pos hmem, if_pos hmem]
        simp [scale_counter, mul_comm q t]
      · rw [if_neg hmem, if_neg hmem]
        rcases Option.eq_none_or_eq_some (assocGet recipes (canon x))
          with hrec | ⟨recipe, hrec⟩
        · rw [hrec]
          simp [scale_counter, mul_comm q t]
        · rw [hrec]
          dsimp only
          by_cases hempty : ((get_ingredients_from_recipe tags recipe).isEmpty
              && !supportedType (rtypeOf recipe)) = true
          · rw [if_pos hempty, if_pos hempty]
            simp [scale_counter, mul_comm q t]
          · rw [if_neg hempty, if_neg hempty]
            have harith : ∀ (i : Int),
                (i : Rat) * (q * t / ((output_count recipe : Int) : Rat))
                = q * ((i : Rat) * (t / ((output_count recipe : Int) : Rat))) := by
              intro i; ring
            simp only [harith]
            have hfold := rawFold_scale
              (fun m ing => calcRawF recipes tags n (canon ing.1)
                (q * ((ing.2 : Rat) * (t / ((output_count recipe : Int) : Rat))))
                (canon x :: P) m)
              (fun m ing => calcRawF recipes tags n (canon ing.1)
                ((ing.2 : Rat) * (t / ((output_count recipe : Int) : Rat)))
                (canon x :: P) m)
              q (get_ingredients_from_recipe tags recipe)
              (fun m ing _ => ih (canon ing.1) q _ hq (canon x :: P) m)
              (([] : Cnt), M)
            have hstart : scale_counter ([] : Cnt) q = ([] : Cnt) := rfl
            rw [hstart] at hfold
            rw [hfold]
            cases hfr : (get_ingredients_from_recipe tags recipe).foldl
                (fun acc ing => acc.bind (fun rm =>
                  (calcRawF recipes tags n (canon ing.1)
                    ((ing.2 : Rat) * (t / ((output_count recipe : Int) : Rat)))
                    (canon x :: P) rm.2).map
                  (fun sub => (Cnt.update rm.1 sub.1, sub.2))))
                (some (([] : Cnt), M)) with
            | none => rfl
            | some out =>
              simp only [Option.map_some']
              have hmemoeq : scale_counter (scale_counter out.1 q) (1 / (q * t))
                  = scale_counter out.1 (1 / t) := by
                rw [scale_scale]
                exact scale_congr _ (factor_identity hq t)
              rw [hmemoeq]
    · rw [hmm]
      dsimp only
      simp [scale_scale, mul_comm q t]

theorem stepsFold_scale (cL cR : (J × Int) → Option (Cnt × List Step)) (q : Rat)
    (l : List (J × Int))
    (hchild : ∀ ing, ing ∈ l →
      cL ing = (cR ing).map
        (fun sub => (scale_counter sub.1 q, sub.2.map (scaleStep q)))) :
    ∀ aR : Cnt × List Step,
      l.foldl
        (fun acc ing => acc.bind (fun rs => (cL ing).map
          (fun sub => (Cnt.update rs.1 sub.1, rs.2 ++ sub.2))))
        (some (scale_counter aR.1 q, aR.2.map (scaleStep q)))
      = (l.foldl
          (fun acc ing => acc.bind (fun rs => (cR ing).map
            (fun sub => (Cnt.update rs.1 sub.1, rs.2 ++ sub.2))))
          (some aR)).map
          (fun rs => (scale_counter rs.1 q, rs.2.map (scaleStep q))) := by
  induction l with
  | nil => intro aR; rfl
  | cons ing t ih =>
    intro aR
    simp only [List.foldl_cons, Option.some_bind]
    rw [hchild ing (by simp)]
    cases hcr : cR ing with
    | none =>
      simp only [Option.map_none']
      rw [stepsFold_none, stepsFold_none]
      rfl
    | some sub =>
      simp only [Option.map_some']
      rw [update_scale, ← List.map_append]
      exact ih (fun x hx => hchild x (List.mem_cons_of_mem _ hx))
        (Cnt.update aR.1 sub.1, aR.2 ++ sub.2)

theorem calcStepsF_scale (recipes : Registry) (tags : Tags) :
    ∀ (fuel : Nat) (x : J) (q t : Rat) (P : List J),
      calcStepsF recipes tags fuel x (q * t) P
      = (calcStepsF recipes tags fuel x t P).map
          (fun rs => (scale_counter rs.1 q, rs.2.map (scaleStep q))) := by
  intro fuel
  induction fuel with
  | zero => intro x q t P; rfl
  | succ n ih =>
    intro x q t P
    rw [calcStepsF, calcStepsF]
    by_cases hmem : canon x ∈ P
    · rw [if_pos hmem, if_pos hmem]
      simp [scale_counter, mul_comm q t]
    · rw [if_neg hmem, if_neg hmem]
      rcases Option.eq_none_or_eq_some (assocGet recipes (canon x))
        with hrec | ⟨recipe, hrec⟩
      · rw [hrec]
        simp [scale_counter, mul_comm q t]
      · rw [hrec]
        dsimp only
        by_cases hempty : (get_ingredients_from_recipe tags recipe).isEmpty = true
        · rw [if_pos hempty, if_pos hempty]
          simp [scale_counter, mul_comm q t]
        · rw [if_neg hempty, if_neg hempty]
          have harith : ∀ (i : Int),
              (i : Rat) * (q * t / ((output_count recipe : Int) : Rat))
              = q * ((i : Rat) * (t / ((output_count recipe : Int) : Rat))) := by
            intro i; ring
          simp only [harith]
          have hcur : Step.mk (canon x) (q * t)
                ((recipe.get "type").getD (J.s "unknown"))
                ((get_ingredients_from_recipe tags recipe).map
                  (fun ing => (canon ing.1,
                    q * ((ing.2 : Rat) * (t / ((output_count recipe : Int) : Rat))))))
              = scaleStep q
                (Step.mk (canon x) t
                  ((recipe.get "type").getD (J.s "unknown"))
                  ((get_ingredients_from_recipe tags recipe).map
                    (fun ing => (canon ing.1,
                      (ing.2 : Rat) * (t / ((output_count recipe : Int) : Rat)))))) := by
            simp [scaleStep]
          have hfold := stepsFold_scale
            (fun ing => calcStepsF recipes tags n (canon ing.1)
              (q * ((ing.2 : Rat) * (t / ((output_count recipe : Int) : Rat))))
              (canon x :: P))
            (fun ing => calcStepsF recipes tags n (canon ing.1)
              ((ing.2 : Rat) * (t / ((output_count recipe : Int) : Rat)))
              (canon x :: P))
            q (get_ingredients_from_recipe tags recipe)
            (fun ing _ => ih (canon ing.1) q _ (canon x :: P))
            (([] : Cnt),
              [Step.mk (canon x) t
                ((recipe.get "type").getD (J.s "unknown"))
                ((get_ingredients_from_recipe tags recipe).map
                  (fun ing => (canon ing.1,
                    (ing.2 : Rat) * (t / ((output_count recipe : Int) : Rat)))))])
          rw [hcur]
          exact hfold

/-! Memo invariants of the totals-only traversal. -/

theorem rawFold_inv {Q : Memo → Prop}
    (c : Memo → (J × Int) → Option (Cnt × Memo)) (l : List (J × Int))
    (hc : ∀ m ing, ing ∈ l → Q m → ∀ s, c m ing = some s → Q s.2) :
    ∀ (a out : Cnt × Memo), Q a.2 →
      l.foldl
        (fun acc ing => acc.bind (fun rm => (c rm.2 ing).map
          (fun sub => (Cnt.update rm.1 sub.1, sub.2))))
        (some a) = some out → Q out.2 := by
  induction l with
  | nil =>
    intro a out ha h
    simp at h
    rw [← h]
    exact ha
  | cons ing t ih =>
    intro a out ha h
    simp only [List.foldl_cons, Option.some_bind] at h
    cases hc0 : c a.2 ing with
    | none =>
      rw [hc0] at h
      simp only [Option.map_none'] at h
      rw [foldBind_none (g := fun rm ing => c rm.2 ing)
        (h := fun rm _ sub => (Cnt.update rm.1 sub.1, sub.2))] at h
      exact Option.noConfusion h
    | some s =>
      rw [hc0] at h
      simp only [Option.map_some'] at h
      exact ih (fun m x hx => hc m x (List.mem_cons_of_mem _ hx))
        (Cnt.update a.1 s.1, s.2) out (hc a.2 ing (by simp) ha s hc0) h

/-- Entries already present in the memo are never overwritten or removed
by any later computation. -/
theorem calcRawF_memo_mono (recipes : Registry) (tags : Tags) :
    ∀ (fuel : Nat) (x : J) (q : Rat) (P : List J) (M : Memo)
      (out : Cnt × Memo),
      calcRawF recipes tags fuel x q P M = some out →
      ∀ k v, assocGet M k = some v → assocGet out.2 k = some v := by
  intro fuel
  induction fuel with
  | zero => intro x q P M out h; exact absurd h (by simp [calcRawF])
  | succ n ih =>
    intro x q P M out h k v hkv
    rw [calcRawF] at h
    rcases Option.eq_none_or_eq_some (assocGet M (canon x)) with hmm | ⟨base, hmm⟩
    · rw [hmm] at h
      dsimp only at h
      by_cases hmem : canon x ∈ P
      · rw [if_pos hmem] at h
        simp at h
        rw [← h]
        dsimp only
        exact hkv
      · rw [if_neg hmem] at h
        rcases Option.eq_none_or_eq_some (assocGet recipes (canon x))
          with hrec | ⟨recipe, hrec⟩
        · rw [hrec] at h
          simp at h
          rw [← h]
          dsimp only
          exact hkv
        · rw [hrec] at h
          dsimp only at h
          by_cases hempty : ((get_ingredients_from_recipe tags recipe).isEmpty
              && !supportedType (rtypeOf recipe)) = true
          · rw [if_pos hempty] at h
            simp at h
            rw [← h]
            dsimp only
            exact hkv
          · rw [if_neg hempty] at h
            cases hfr : (get_ingredients_from_recipe tags recipe).foldl
                (fun acc ing => acc.bind (fun rm =>
                  (calcRawF recipes tags n (canon ing.1)
                    ((ing.2 : Rat) * (q / ((output_count recipe : Int) : Rat)))
                    (canon x :: P) rm.2).map
                  (fun sub => (Cnt.update rm.1 sub.1, sub.2))))
                (some (([] : Cnt), M)) with
            | none =>
              rw [hfr] at h
              exact Option.noConfusion h
            | some fout =>
              rw [hfr] at h
              simp at h
              have hkeep : assocGet fout.2 k = some v := by
                refine rawFold_inv
                  (Q := fun m => assocGet m k = some v)
                  (c := fun m ing => calcRawF recipes tags n (canon ing.1)
                    ((ing.2 : Rat) * (q / ((output_count recipe : Int) : Rat)))
                    (canon x :: P) m)
                  _ (fun m ing _ hm s hs => ih _ _ _ _ _ hs k v hm)
                  (([] : Cnt), M) fout hkv hfr
              rw [← h]
              dsimp only
              have hkx : k ≠ canon x := by
                intro hk
                rw [hk, hmm] at hkv
                exact Option.noConfusion hkv
              rw [assocGet_assocSet_ne _ _ _ _ hkx]
              exact hkeep
    · rw [hmm] at h
      dsimp only at h
      simp at h
      rw [← h]
      dsimp only
      exact hkv

/-- No sub-computation ever stores a memo entry for an item that lies on
the current descent path (so the final store of a call never overwrites an
entry made during its own children). -/
theorem calcRawF_no_path_store (recipes : Registry) (tags : Tags) :
    ∀ (fuel : Nat) (x : J) (q : Rat) (P : List J) (M : Memo)
      (out : Cnt × Memo),
      calcRawF recipes tags fuel x q P M = some out →
      ∀ k ∈ P, assocGet M k = none → assocGet out.2 k = none := by
  intro fuel
  induction fuel with
  | zero => intro x q P M out h; exact absurd h (by simp [calcRawF])
  | succ n ih =>
    intro x q P M out h k hkP hkM
    rw [calcRawF] at h
    rcases Option.eq_none_or_eq_some (assocGet M (canon x)) with hmm | ⟨base, hmm⟩
    · rw [hmm] at h
      dsimp only at h
      by_cases hmem : canon x ∈ P
      · rw [if_pos hmem] at h
        simp at h
        rw [← h]
        dsimp only
        exact hkM
      · rw [if_neg hmem] at h
        rcases Option.eq_none_or_eq_some (assocGet recipes (canon x))
          with hrec | ⟨recipe, hrec⟩
        · rw [hrec] at h
          simp at h
          rw [← h]
          dsimp only
          exact hkM
        · rw [hrec] at h
          dsimp only at h
          by_cases hempty : ((get_ingredients_from_recipe tags recipe).isEmpty
              && !supportedType (rtypeOf recipe)) = true
          · rw [if_pos hempty] at h
            simp at h
            rw [← h]
            dsimp only
            exact hkM
          · rw [if_neg hempty] at h
            cases hfr : (get_ingredients_from_recipe tags recipe).foldl
                (fun acc ing => acc.bind (fun rm =>
                  (calcRawF recipes tags n (canon ing.1)
                    ((ing.2 : Rat) * (q / ((output_count recipe : Int) : Rat)))
                    (canon x :: P) rm.2).map
                  (fun sub => (Cnt.update rm.1 sub.1, sub.2))))
                (some (([] : Cnt), M)) with
            | none =>
              rw [hfr] at h
              exact Option.noConfusion h
            | some fout =>
              rw [hfr] at h
              simp at h
              have hkeep : assocGet fout.2 k = none := by
                refine rawFold_inv
                  (Q := fun m => assocGet m k = none)
                  (c := fun m ing => calcRawF recipes tags n (canon ing.1)
                    ((ing.2 : Rat) * (q / ((output_count recipe : Int) : Rat)))
                    (canon x :: P) m)
                  _ (fun m ing _ hm s hs =>
                      ih _ _ _ _ _ hs k (List.mem_cons_of_mem _ hkP) hm)
                  (([] : Cnt), M) fout hkM hfr
              rw [← h]
              dsimp only
              have hkx : k ≠ canon x := by
                intro hk
                rw [hk] at hkP
                exact hmem hkP
              rw [assocGet_assocSet_ne _ _ _ _ hkx]
              exact hkeep
    · rw [hmm] at h
      dsimp only at h
      simp at h
      rw [← h]
      dsimp only
      exact hkM

theorem unvisited_lt_fuelFor (recipes : Registry) (P : List J) :
    unvisited recipes P < fuelFor recipes := by
  unfold unvisited fuelFor
  have h1 := List.length_filter_le (fun k => k ∉ P) (recipes.map Prod.fst)
  have h2 : (recipes.map Prod.fst).length = recipes.length := List.length_map _ _
  omega

/-- Claim C3 (linearity): for an acyclic registry (witnessed by a rank
function decreasing along extracted-ingredient edges) and positive k and
q, the raw totals of resolving (item, k * q) are the totals of
(item, q) scaled elementwise by k.  The proof in fact never uses the
acyclicity hypothesis: quantity propagation is linear on every registry. -/
theorem C3_linearity (recipes_data : Registry) (tags : Tags) (rank : J → Nat)
    (hacyc : ∀ p ∈ engineRecipes recipes_data,
      ∀ ing ∈ get_ingredients_from_recipe tags p.2,
        rank (canon ing.1) < rank p.1)
    (item : J) (k q : Rat) (hk : 0 < k) (hq : 0 < q) :
    ∀ j, Cnt.get (calculate_raw_materials recipes_data tags item (k * q)).1 j
      = k * Cnt.get (calculate_raw_materials recipes_data tags item q).1 j := by
  intro j
  have hk0 : k ≠ 0 := ne_of_gt hk
  have hscale := calcRawF_scale (engineRecipes recipes_data) tags
    (fuelFor (engineRecipes recipes_data)) item k q hk0 [] []
  have hsome := calcRawF_isSome (engineRecipes recipes_data) tags
    (fuelFor (engineRecipes recipes_data)) item q [] []
    (unvisited_lt_fuelFor _ _)
  rcases Option.isSome_iff_exists.mp hsome with ⟨rm, hrm⟩
  unfold calculate_raw_materials
  rw [hrm, hscale, hrm]
  simp [Cnt.get_scale, mul_comm]

/-- Witness for C3 on the stick/plank/log chain at k = 3, q = 2. -/
theorem C3_linearity_witness :
    (0 : Rat) < 3 ∧ (0 : Rat) < 2 ∧
      Cnt.get (calculate_raw_materials chainReg [] (.s "stick") (3 * 2)).1
          (.s "log")
        = 3 * Cnt.get (calculate_raw_materials chainReg [] (.s "stick") 2).1
            (.s "log") :=
  ⟨by norm_num, by norm_num,
    C3_linearity chainReg []
      (fun j => if j = .s "stick" then 2 else if j = .s "plank" then 1 else 0)
      (by decide) (.s "stick") 3 2 (by norm_num) (by norm_num) (.s "log")⟩

/-- Claim C1 (memo invariant): resolving (item, q) on a fresh engine
stores, per canonical item, the per-unit (quantity 1) raw vector: the run
at quantity q and the run at quantity 1 build the same memo, any entry
recorded for the resolved item equals the quantity-1 totals, the returned
totals are that vector scaled by q, and (on every state) entries already
present are never overwritten and no entry is ever created for an item on
the current descent path (so the single store per item is final). -/
theorem C1_memo_invariant (recipes_data : Registry) (tags : Tags) (item : J)
    (q : Rat) (hq : q ≠ 0) :
    ∃ r M1 r1,
      calcRawF (engineRecipes recipes_data) tags
        (fuelFor (engineRecipes recipes_data)) item q [] [] = some (r, M1) ∧
      calcRawF (engineRecipes recipes_data) tags
        (fuelFor (engineRecipes recipes_data)) item 1 [] [] = some (r1, M1) ∧
      (∀ u, assocGet M1 (canon item) = some u →
        ∀ j, Cnt.get u j = Cnt.get r1 j) ∧
      (∀ j, Cnt.get r j = q * Cnt.get r1 j) ∧
      (∀ (M : Memo) (P : List J) (out : Cnt × Memo),
        calcRawF (engineRecipes recipes_data) tags
          (fuelFor (engineRecipes recipes_data)) item q P M = some out →
        (∀ k v, assocGet M k = some v → assocGet out.2 k = some v) ∧
        (∀ k ∈ P, assocGet M k = none → assocGet out.2 k = none)) := by
  have hsome1 := calcRawF_isSome (engineRecipes recipes_data) tags
    (fuelFor (engineRecipes recipes_data)) item 1 [] []
    (unvisited_lt_fuelFor _ _)
  rcases Option.isSome_iff_exists.mp hsome1 with ⟨rm1, hrm1⟩
  have hscale := calcRawF_scale (engineRecipes recipes_data) tags
    (fuelFor (engineRecipes recipes_data)) item q 1 hq [] []
  rw [mul_one, hrm1] at hscale
  refine ⟨scale_counter rm1.1 q, rm1.2, rm1.1, by rw [hscale]; rfl, by rw [hrm1], ?_, ?_, ?_⟩
  · -- the stored entry for the resolved item is the per-unit vector
    intro u hu j
    rw [show fuelFor (engineRecipes recipes_data)
      = (engineRecipes recipes_data).length + 1 from rfl] at hrm1
    rw [calcRawF] at hrm1
    rw [show assocGet ([] : Memo) (canon item) = none from rfl] at hrm1
    dsimp only at hrm1
    rw [if_neg (by simp)] at hrm1
    rcases Option.eq_none_or_eq_some
      (assocGet (engineRecipes recipes_data) (canon item))
      with hrec | ⟨recipe, hrec⟩
    · rw [hrec] at hrm1
      simp at hrm1
      rw [← hrm1] at hu
      exact absurd hu (by simp [assocGet])
    · rw [hrec] at hrm1
      dsimp only at hrm1
      by_cases hempty : ((get_ingredients_from_recipe tags recipe).isEmpty
          && !supportedType (rtypeOf recipe)) = true
      · rw [if_pos hempty] at hrm1
        simp at hrm1
        rw [← hrm1] at hu
        exact absurd hu (by simp [assocGet])
      · rw [if_neg hempty] at hrm1
        cases hfr : (get_ingredients_from_recipe tags recipe).foldl
            (fun acc ing => acc.bind (fun rm =>
              (calcRawF (engineRecipes recipes_data) tags
                ((engineRecipes recipes_data).length) (canon ing.1)
                ((ing.2 : Rat) * (1 / ((output_count recipe : Int) : Rat)))
                (canon item :: []) rm.2).map
              (fun sub => (Cnt.update rm.1 sub.1, sub.2))))
            (some (([] : Cnt), ([] : Memo))) with
        | none =>
          rw [hfr] at hrm1
          exact Option.noConfusion hrm1
        | some fout =>
          rw [hfr] at hrm1
          simp at hrm1
          rw [← hrm1] at hu ⊢
          dsimp only at hu ⊢
          rw [assocGet_assocSet_self] at hu
          rw [Option.some.injEq] at hu
          rw [← hu, Cnt.get_scale]
          norm_num
  · intro j
    rw [Cnt.get_scale]
    ring
  · intro M P out hout
    exact ⟨fun k v => calcRawF_memo_mono _ _ _ _ _ _ _ _ hout k v,
      fun k hk => calcRawF_no_path_store _ _ _ _ _ _ _ _ hout k hk⟩

/-- Witness for C1 on the stick/plank/log chain at q = 2. -/
theorem C1_memo_invariant_witness :
    (2 : Rat) ≠ 0 ∧
      ∃ r M1 r1,
        calcRawF (engineRecipes chainReg) [] (fuelFor (engineRecipes chainReg))
          (.s "stick") 2 [] [] = some (r, M1) ∧
        calcRawF (engineRecipes chainReg) [] (fuelFor (engineRecipes chainReg))
          (.s "stick") 1 [] [] = some (r1, M1) ∧
        (∀ u, assocGet M1 (canon (.s "stick")) = some u →
          ∀ j, Cnt.get u j = Cnt.get r1 j) ∧
        (∀ j, Cnt.get r j = 2 * Cnt.get r1 j) ∧
        (∀ (M : Memo) (P : List J) (out : Cnt × Memo),
          calcRawF (engineRecipes chainReg) [] (fuelFor (engineRecipes chainReg))
            (.s "stick") 2 P M = some out →
          (∀ k v, assocGet M k = some v → assocGet out.2 k = some v) ∧
          (∀ k ∈ P, assocGet M k = none → assocGet out.2 k = none)) :=
  ⟨by norm_num, C1_memo_invariant chainReg [] (.s "stick") 2 (by norm_num)⟩

/-! Claims C6, C7, C8. -/

theorem calcRawF_congr_item (recipes : Registry) (tags : Tags) {a b : J}
    (h : canon a = canon b) (fuel : Nat) (q : Rat) (P : List J) (M : Memo) :
    calcRawF recipes tags fuel a q P M = calcRawF recipes tags fuel b q P M := by
  cases fuel with
  | zero => rfl
  | succ n => rw [calcRawF, calcRawF, h]

theorem calcStepsF_congr_item (recipes : Registry) (tags : Tags) {a b : J}
    (h : canon a = canon b) (fuel : Nat) (q : Rat) (P : List J) :
    calcStepsF recipes tags fuel a q P = calcStepsF recipes tags fuel b q P := by
  cases fuel with
  | zero => rfl
  | succ n => rw [calcStepsF, calcStepsF, h]

/-- Claim C6 (leaf identity / unknown target): a canonical item id with no
entry in the engine registry resolves, at every quantity, to the single
raw entry (item, q) with an empty step list (and an untouched empty memo);
requesting it is not an error. -/
theorem C6_leaf_identity (recipes_data : Registry) (tags : Tags) (item : J)
    (q : Rat) (hcanon : canon item = item)
    (habsent : assocGet (engineRecipes recipes_data) item = none) :
    calculate_raw_materials recipes_data tags item q = ([(item, q)], []) ∧
      calculate_with_steps recipes_data tags item q = ([(item, q)], []) := by
  constructor
  · unfold calculate_raw_materials
    rw [show fuelFor (engineRecipes recipes_data)
      = (engineRecipes recipes_data).length + 1 from rfl]
    rw [calcRawF, hcanon]
    rw [show assocGet ([] : Memo) item = none from rfl]
    dsimp only
    rw [if_neg (by simp), habsent]
    rfl
  · unfold calculate_with_steps
    rw [show fuelFor (engineRecipes recipes_data)
      = (engineRecipes recipes_data).length + 1 from rfl]
    rw [calcStepsF, hcanon]
    rw [if_neg (by simp), habsent]
    rfl

/-- Witness for C6: an unknown item against the chain registry. -/
theorem C6_leaf_identity_witness :
    canon (.s "minecraft:iron_ingot") = .s "minecraft:iron_ingot" ∧
      assocGet (engineRecipes chainReg) (.s "minecraft:iron_ingot") = none ∧
      calculate_raw_materials chainReg [] (.s "minecraft:iron_ingot") 7
        = ([(.s "minecraft:iron_ingot", 7)], []) ∧
      calculate_with_steps chainReg [] (.s "minecraft:iron_ingot") 7
        = ([(.s "minecraft:iron_ingot", 7)], []) := by
  refine ⟨by decide, by decide, ?_⟩
  exact C6_leaf_identity chainReg [] (.s "minecraft:iron_ingot") 7
    (by decide) (by decide)

/-- Claim C7 (alias transparency): resolving an item through a declared
namespace alias gives exactly the same totals and steps as resolving the
canonical id, on every registry, tag table, quantity, and engine state
(the canonicalizer is applied to the request id before every lookup,
memo key, and recorded step). -/
theorem C7_alias_transparency (recipes_data : Registry) (tags : Tags)
    (alt cn : String) (halias : assocGet NS_ALIASES alt = some cn)
    (x : String) (q : Rat) :
    calculate_raw_materials recipes_data tags (.s (alt ++ ":" ++ x)) q
      = calculate_raw_materials recipes_data tags (.s (cn ++ ":" ++ x)) q ∧
    calculate_with_steps recipes_data tags (.s (alt ++ ":" ++ x)) q
      = calculate_with_steps recipes_data tags (.s (cn ++ ":" ++ x)) q := by
  obtain ⟨h1, h2⟩ := canonStr_alias halias x
  have hc : canon (.s (alt ++ ":" ++ x)) = canon (.s (cn ++ ":" ++ x)) := by
    simp [canon, h1, h2]
  constructor
  · unfold calculate_raw_materials
    rw [calcRawF_congr_item _ _ hc]
  · unfold calculate_with_steps
    rw [calcStepsF_congr_item _ _ hc]

/-- Witness for C7: the appliedenergistics2 alias on a one-recipe
registry. -/
theorem C7_alias_transparency_witness :
    assocGet NS_ALIASES "appliedenergistics2" = some "ae2" ∧
      calculate_raw_materials aliasReg []
        (.s ("appliedenergistics2" ++ ":" ++ "controller")) 1
      = calculate_raw_materials aliasReg [] (.s ("ae2" ++ ":" ++ "controller")) 1 ∧
      calculate_with_steps aliasReg []
        (.s ("appliedenergistics2" ++ ":" ++ "controller")) 1
      = calculate_with_steps aliasReg [] (.s ("ae2" ++ ":" ++ "controller")) 1 := by
  refine ⟨by decide, ?_⟩
  exact C7_alias_transparency aliasReg [] "appliedenergistics2" "ae2"
    (by decide) "controller" 1

/-- Claim C8 (graph description): on the registry holding exactly the
stick (4 from 2 plank) and plank (4 from 1 log) chain recipes, the graph
description of resolve(stick, 2) has exactly the three nodes stick, plank,
log (in first-encounter order) and exactly the two labeled edges
plank -> stick labeled 1 and log -> plank labeled 0.25, with near-integral
quantities rendered without a decimal point and 0.25 with its trailing
zeros trimmed. -/
theorem C8_graph_description :
    mermaid_items (analyze chainReg [] (.s "stick") 2).steps
      = [.s "stick", .s "plank", .s "log"] ∧
    mermaid_edges (analyze chainReg [] (.s "stick") 2).steps
      = [(.s "plank", "1", .s "stick"), (.s "log", "0.25", .s "plank")] ∧
    to_mermaid (analyze chainReg [] (.s "stick") 2)
      = "flowchart LR\n  n1[\"stick\"]\n  n2[\"plank\"]\n  n3[\"log\"]\n  n2 -- x1 --> n1\n  n3 -- x0.25 --> n2" := by
  refine ⟨by with_unfolding_all decide, by with_unfolding_all decide,
    by with_unfolding_all decide⟩

/-! Demand chains and their normalization (for Claim C2). -/

theorem reqChain_snoc (recipes : Registry) (tags : Tags) :
    ∀ (l : List J) (x y z : J),
      ReqChain recipes tags x l y → reqStep recipes tags y z →
      ReqChain recipes tags x (l ++ [y]) z := by
  intro l
  induction l with
  | nil =>
    intro x y z h1 h2
    exact ⟨h1, h2⟩
  | cons w t ih =>
    intro x y z h1 h2
    exact ⟨h1.1, ih _ _ _ h1.2 h2⟩

theorem transGen_to_chain (recipes : Registry) (tags : Tags) {a b : J}
    (h : Relation.TransGen (reqStep recipes tags) a b) :
    ∃ l, ReqChain recipes tags a l b := by
  induction h with
  | single h1 => exact ⟨[], h1⟩
  | tail _ h2 ih =>
    obtain ⟨l, hl⟩ := ih
    exact ⟨l ++ [_], reqChain_snoc _ _ _ _ _ _ hl h2⟩

theorem reqChain_split (recipes : Registry) (tags : Tags) :
    ∀ (l1 : List J) (x y z : J) (l2 : List J),
      ReqChain recipes tags x (l1 ++ y :: l2) z →
      ReqChain recipes tags x l1 y ∧ ReqChain recipes tags y l2 z := by
  intro l1
  induction l1 with
  | nil =>
    intro x y z l2 h
    exact ⟨h.1, h.2⟩
  | cons w t ih =>
    intro x y z l2 h
    obtain ⟨h1, h2⟩ := ih _ _ _ _ h.2
    exact ⟨⟨h.1, h1⟩, h2⟩

theorem reqChain_compose (recipes : Registry) (tags : Tags) :
    ∀ (l1 : List J) (x y z : J) (l2 : List J),
      ReqChain recipes tags x l1 y → ReqChain recipes tags y l2 z →
      ReqChain recipes tags x (l1 ++ y :: l2) z := by
  intro l1
  induction l1 with
  | nil =>
    intro x y z l2 h1 h2
    exact ⟨h1, h2⟩
  | cons w t ih =>
    intro x y z l2 h1 h2
    exact ⟨h1.1, ih _ _ _ _ h1.2 h2⟩

theorem not_nodup_split {l : List J} (h : ¬ l.Nodup) :
    ∃ (x : J) (l1 l2 l3 : List J), l = l1 ++ x :: (l2 ++ x :: l3) := by
  induction l with
  | nil => exact absurd List.nodup_nil h
  | cons y t ih =>
    by_cases hy : y ∈ t
    · obtain ⟨s, u, hsu⟩ := List.append_of_mem hy
      exact ⟨y, [], s, u, by simp [hsu]⟩
    · have hnt : ¬ t.Nodup := by
        intro hnd
        exact h (List.nodup_cons.mpr ⟨hy, hnd⟩)
      obtain ⟨x, l1, l2, l3, hx⟩ := ih hnt
      exact ⟨x, y :: l1, l2, l3, by simp [hx]⟩

theorem chain_shorten (recipes : Registry) (tags : Tags) (A : J) :
    ∀ (n : Nat) (l : List J), l.length ≤ n →
      ReqChain recipes tags A l A →
      ∃ l', ReqChain recipes tags A l' A ∧ A ∉ l' ∧ l'.Nodup := by
  intro n
  induction n with
  | zero =>
    intro l hlen h
    have : l = [] := List.eq_nil_of_length_eq_zero (by omega)
    subst this
    exact ⟨[], h, by simp, List.nodup_nil⟩
  | succ n ih =>
    intro l hlen h
    by_cases hA : A ∈ l
    · obtain ⟨s, t, hst⟩ := List.append_of_mem hA
      subst hst
      obtain ⟨h1, -⟩ := reqChain_split recipes tags s A A A t h
      have hlen2 : (s ++ A :: t).length = s.length + t.length + 1 := by
        simp
        omega
      have : s.length ≤ n := by omega
      exact ih s this h1
    · by_cases hnd : l.Nodup
      · exact ⟨l, h, hA, hnd⟩
      · obtain ⟨x, l1, l2, l3, hx⟩ := not_nodup_split hnd
        subst hx
        obtain ⟨h1, h2⟩ := reqChain_split recipes tags l1 A x A (l2 ++ x :: l3) h
        obtain ⟨-, h3⟩ := reqChain_split recipes tags l2 x x A l3 h2
        have hcomp := reqChain_compose recipes tags l1 A x A l3 h1 h3
        have ha : (l1 ++ x :: (l2 ++ x :: l3)).length
            = l1.length + l2.length + l3.length + 2 := by
          simp
          omega
        have hb : (l1 ++ x :: l3).length = l1.length + l3.length + 1 := by
          simp
          omega
        have : (l1 ++ x :: l3).length ≤ n := by omega
        exact ih _ this hcomp

/-- On a registry with positive output counts and ingredient counts, every
raw total computed by the steps traversal at a nonnegative quantity is
nonnegative. -/
theorem calcStepsF_nonneg (recipes : Registry) (tags : Tags)
    (hpos : ∀ p ∈ recipes, 0 < output_count p.2 ∧
      ∀ ing ∈ get_ingredients_from_recipe tags p.2, 0 < ing.2) :
    ∀ (fuel : Nat) (x : J) (q : Rat) (P : List J) (out : Cnt × List Step),
      0 ≤ q → calcStepsF recipes tags fuel x q P = some out →
      ∀ k, 0 ≤ Cnt.get out.1 k := by
  intro fuel
  induction fuel with
  | zero => intro x q P out hq h; exact absurd h (by simp [calcStepsF])
  | succ n ih =>
    intro x q P out hq h k
    rw [calcStepsF] at h
    by_cases hmem : canon x ∈ P
    · rw [if_pos hmem] at h
      simp at h
      rw [← h, Cnt.get_single]
      by_cases hk : canon x = k <;> simp [hk, hq]
    · rw [if_neg hmem] at h
      rcases Option.eq_none_or_eq_some (assocGet recipes (canon x))
        with hrec | ⟨recipe, hrec⟩
      · rw [hrec] at h
        simp at h
        rw [← h, Cnt.get_single]
        by_cases hk : canon x = k <;> simp [hk, hq]
      · rw [hrec] at h
        dsimp only at h
        obtain ⟨hout, hings⟩ := hpos _ (assocGet_mem hrec)
        by_cases hempty : (get_ingredients_from_recipe tags recipe).isEmpty = true
        · rw [if_pos hempty] at h
          simp at h
          rw [← h, Cnt.get_single]
          by_cases hk : canon x = k <;> simp [hk, hq]
        · rw [if_neg hempty] at h
          obtain ⟨subs, hmap, hget, -⟩ := stepsFold_some _ _ _ _ h
          rw [hget k]
          have h0 : Cnt.get (([] : Cnt)) k = 0 := rfl
          rw [show ((([] : Cnt),
            [Step.mk (canon x) q ((recipe.get "type").getD (J.s "unknown"))
              ((get_ingredients_from_recipe tags recipe).map
                (fun ing => (canon ing.1,
                  (ing.2 : Rat) * (q / ((output_count recipe : Int) : Rat))))) ]) :
              Cnt × List Step).1 = ([] : Cnt) from rfl, h0, zero_add]
          apply List.sum_nonneg
          intro v hv
          obtain ⟨sub, hsub, hveq⟩ := List.mem_map.mp hv
          obtain ⟨ing, hingmem, hing⟩ : ∃ ing ∈ get_ingredients_from_recipe tags recipe,
              calcStepsF recipes tags n (canon ing.1)
                ((ing.2 : Rat) * (q / ((output_count recipe : Int) : Rat)))
                (canon x :: P) = some sub := by
            have hmem2 : some sub ∈ subs.map some := List.mem_map_of_mem _ hsub
            rw [← hmap] at hmem2
            obtain ⟨ing, hi1, hi2⟩ := List.mem_map.mp hmem2
            exact ⟨ing, hi1, hi2⟩
          have hqc : 0 ≤ (ing.2 : Rat) * (q / ((output_count recipe : Int) : Rat)) := by
            apply mul_nonneg
            · exact_mod_cast le_of_lt (hings ing hingmem)
            · apply div_nonneg hq
              exact_mod_cast le_of_lt hout
          rw [← hveq]
          exact ih _ _ _ _ hqc hing k

/-- A call whose descent path already holds A records no production step
for A: the cyclic re-entry is silent in the step trace. -/
theorem calcStepsF_no_step_on_path (recipes : Registry) (tags : Tags) (A : J) :
    ∀ (fuel : Nat) (x : J) (q : Rat) (P : List J) (out : Cnt × List Step),
      A ∈ P → calcStepsF recipes tags fuel x q P = some out →
      ∀ st ∈ out.2, st.item ≠ A := by
  intro fuel
  induction fuel with
  | zero => intro x q P out hA h; exact absurd h (by simp [calcStepsF])
  | succ n ih =>
    intro x q P out hA h st hst
    rw [calcStepsF] at h
    by_cases hmem : canon x ∈ P
    · rw [if_pos hmem] at h
      simp at h
      rw [← h] at hst
      simp at hst
    · rw [if_neg hmem] at h
      rcases Option.eq_none_or_eq_some (assocGet recipes (canon x))
        with hrec | ⟨recipe, hrec⟩
      · rw [hrec] at h
        simp at h
        rw [← h] at hst
        simp at hst
      · rw [hrec] at h
        dsimp only at h
        by_cases hempty : (get_ingredients_from_recipe tags recipe).isEmpty = true
        · rw [if_pos hempty] at h
          simp at h
          rw [← h] at hst
          simp at hst
        · rw [if_neg hempty] at h
          obtain ⟨subs, hmap, -, hsteps⟩ := stepsFold_some _ _ _ _ h
          rw [hsteps] at hst
          rcases List.mem_append.mp hst with hcur | hflat
          · simp at hcur
            rw [hcur]
            simp only [ne_eq]
            intro heq
            rw [heq] at hmem
            exact hmem hA
          · obtain ⟨stl, hstl, hstin⟩ := List.mem_flatten.mp hflat
            obtain ⟨sub, hsub, hseq⟩ := List.mem_map.mp hstl
            obtain ⟨ing, hingmem, hing⟩ : ∃ ing ∈ get_ingredients_from_recipe tags recipe,
                calcStepsF recipes tags n (canon ing.1)
                  ((ing.2 : Rat) * (q / ((output_count recipe : Int) : Rat)))
                  (canon x :: P) = some sub := by
              have hmem2 : some sub ∈ subs.map some := List.mem_map_of_mem _ hsub
              rw [← hmap] at hmem2
              obtain ⟨ing, hi1, hi2⟩ := List.mem_map.mp hmem2
              exact ⟨ing, hi1, hi2⟩
            have := ih (canon ing.1) _ (canon x :: P) (sub.1, sub.2)
              (List.mem_cons_of_mem _ hA) (by simpa using hing) st
            apply this
            rw [← hseq] at hstin
            exact hstin

/-- Down a simple demand chain from x to A, with A already on (or at the
head of) the path, the steps traversal returns a strictly positive raw
total for A: the cyclic re-entry contributes A itself as a raw material. -/
theorem calcStepsF_chain_reach (recipes : Registry) (tags : Tags)
    (hpos : ∀ p ∈ recipes, 0 < output_count p.2 ∧
      ∀ ing ∈ get_ingredients_from_recipe tags p.2, 0 < ing.2) (A : J) :
    ∀ (l : List J) (fuel : Nat) (x : J) (q : Rat) (P : List J)
      (out : Cnt × List Step),
      ReqChain recipes tags x l A → canon x = x →
      A ∈ x :: P → x ∉ P → (∀ y ∈ l, y ∉ x :: P) → A ∉ l → l.Nodup →
      0 < q → calcStepsF recipes tags fuel x q P = some out →
      0 < Cnt.get out.1 A := by
  intro l
  induction l with
  | nil =>
    intro fuel x q P out hchain hcanon hAxP hxP hlP hAl hnd hq h
    obtain ⟨r, hr, p, hpmem, hpcanon⟩ := hchain
    cases fuel with
    | zero => exact absurd h (by simp [calcStepsF])
    | succ n =>
      rw [calcStepsF, hcanon, if_neg hxP, hr] at h
      dsimp only at h
      have hne : get_ingredients_from_recipe tags r ≠ [] :=
        List.ne_nil_of_mem hpmem
      rw [if_neg (by simpa using hne)] at h
      obtain ⟨subs, hmap, hget, -⟩ := stepsFold_some _ _ _ _ h
      obtain ⟨hout, hings⟩ := hpos _ (assocGet_mem hr)
      have hqc : 0 < (p.2 : Rat) * (q / ((output_count r : Int) : Rat)) := by
        apply mul_pos
        · exact_mod_cast hings p hpmem
        · apply div_pos hq
          exact_mod_cast hout
      obtain ⟨sub, hsub⟩ := map_eq_map_some hmap p hpmem
      have hsubmem : sub ∈ subs := by
        have h1 : some sub ∈ subs.map some := by
          rw [← hmap, ← hsub]
          exact List.mem_map_of_mem _ hpmem
        obtain ⟨s, hs1, hs2⟩ := List.mem_map.mp h1
        simpa using (Option.some.inj hs2) ▸ hs1
      have hcA : canon A = A := by rw [← hpcanon, canon_idem]
      rw [hpcanon] at hsub
      have hsubval : 0 < Cnt.get sub.1 A := by
        cases n with
        | zero => exact absurd hsub (by simp [calcStepsF])
        | succ m =>
          rw [calcStepsF, hcA, if_pos hAxP] at hsub
          simp at hsub
          rw [← hsub, Cnt.get_single]
          simpa using hqc
      have hnn : ∀ v ∈ subs.map (fun s => Cnt.get s.1 A), 0 ≤ v := by
        intro v hv
        obtain ⟨s, hsm, hveq⟩ := List.mem_map.mp hv
        obtain ⟨ing, hingmem, hing⟩ : ∃ ing ∈ get_ingredients_from_recipe tags r,
            calcStepsF recipes tags n (canon ing.1)
              ((ing.2 : Rat) * (q / ((output_count r : Int) : Rat)))
              (x :: P) = some s := by
          have hmem2 : some s ∈ subs.map some := List.mem_map_of_mem _ hsm
          rw [← hmap] at hmem2
          obtain ⟨ing, hi1, hi2⟩ := List.mem_map.mp hmem2
          exact ⟨ing, hi1, hi2⟩
        have : 0 ≤ (ing.2 : Rat) * (q / ((output_count r : Int) : Rat)) := by
          apply mul_nonneg
          · exact_mod_cast le_of_lt (hings ing hingmem)
          · exact div_nonneg (le_of_lt hq) (by exact_mod_cast le_of_lt hout)
        rw [← hveq]
        exact calcStepsF_nonneg recipes tags hpos _ _ _ _ _ this hing A
      have hle := List.single_le_sum hnn _
        (List.mem_map_of_mem (fun s => Cnt.get s.1 A) hsubmem)
      rw [hget A] at *
      have hz : Cnt.get (([] : Cnt)) A = 0 := rfl
      calc (0 : Rat) < Cnt.get sub.1 A := hsubval
        _ ≤ (subs.map (fun s => Cnt.get s.1 A)).sum := hle
        _ ≤ Cnt.get (([] : Cnt)) A
            + (subs.map (fun s => Cnt.get s.1 A)).sum := by rw [hz]; simp
  | cons z rest ih =>
    intro fuel x q P out hchain hcanon hAxP hxP hlP hAl hnd hq h
    obtain ⟨⟨r, hr, p, hpmem, hpcanon⟩, hchain2⟩ := hchain
    cases fuel with
    | zero => exact absurd h (by simp [calcStepsF])
    | succ n =>
      rw [calcStepsF, hcanon, if_neg hxP, hr] at h
      dsimp only at h
      have hne : get_ingredients_from_recipe tags r ≠ [] :=
        List.ne_nil_of_mem hpmem
      rw [if_neg (by simpa using hne)] at h
      obtain ⟨subs, hmap, hget, -⟩ := stepsFold_some _ _ _ _ h
      obtain ⟨hout, hings⟩ := hpos _ (assocGet_mem hr)
      have hqc : 0 < (p.2 : Rat) * (q / ((output_count r : Int) : Rat)) := by
        apply mul_pos
        · exact_mod_cast hings p hpmem
        · apply div_pos hq
          exact_mod_cast hout
      obtain ⟨sub, hsub⟩ := map_eq_map_some hmap p hpmem
      have hsubmem : sub ∈ subs := by
        have h1 : some sub ∈ subs.map some := by
          rw [← hmap, ← hsub]
          exact List.mem_map_of_mem _ hpmem
        obtain ⟨s, hs1, hs2⟩ := List.mem_map.mp h1
        simpa using (Option.some.inj hs2) ▸ hs1
      have hcz : canon z = z := by rw [← hpcanon, canon_idem]
      rw [hpcanon] at hsub
      have hsubval : 0 < Cnt.get sub.1 A := by
        refine ih n z _ (x :: P) sub hchain2 hcz ?_ ?_ ?_ ?_ ?_ hqc hsub
        · exact List.mem_cons_of_mem _ hAxP
        · exact hlP z (by simp)
        · intro y hy
          simp only [List.mem_cons]
          rintro (h1 | h2)
          · rw [h1] at hy
            exact (List.nodup_cons.mp hnd).1 hy
          · exact hlP y (List.mem_cons_of_mem _ hy) (List.mem_cons.mpr h2)
        · intro hmemA
          exact hAl (List.mem_cons_of_mem _ hmemA)
        · exact (List.nodup_cons.mp hnd).2
      have hnn : ∀ v ∈ subs.map (fun s => Cnt.get s.1 A), 0 ≤ v := by
        intro v hv
        obtain ⟨s, hsm, hveq⟩ := List.mem_map.mp hv
        obtain ⟨ing, hingmem, hing⟩ : ∃ ing ∈ get_ingredients_from_recipe tags r,
            calcStepsF recipes tags n (canon ing.1)
              ((ing.2 : Rat) * (q / ((output_count r : Int) : Rat)))
              (x :: P) = some s := by
          have hmem2 : some s ∈ subs.map some := List.mem_map_of_mem _ hsm
          rw [← hmap] at hmem2
          obtain ⟨ing, hi1, hi2⟩ := List.mem_map.mp hmem2
          exact ⟨ing, hi1, hi2⟩
        have : 0 ≤ (ing.2 : Rat) * (q / ((output_count r : Int) : Rat)) := by
          apply mul_nonneg
          · exact_mod_cast le_of_lt (hings ing hingmem)
          · exact div_nonneg (le_of_lt hq) (by exact_mod_cast le_of_lt hout)
        rw [← hveq]
        exact calcStepsF_nonneg recipes tags hpos _ _ _ _ _ this hing A
      have hle := List.single_le_sum hnn _
        (List.mem_map_of_mem (fun s => Cnt.get s.1 A) hsubmem)
      rw [hget A] at *
      have hz : Cnt.get (([] : Cnt)) A = 0 := rfl
      calc (0 : Rat) < Cnt.get sub.1 A := hsubval
        _ ≤ (subs.map (fun s => Cnt.get s.1 A)).sum := hle
        _ ≤ Cnt.get (([] : Cnt)) A
            + (subs.map (fun s => Cnt.get s.1 A)).sum := by rw [hz]; simp

theorem chain_head (recipes : Registry) (tags : Tags) {x y : J} {l : List J}
    (h : ReqChain recipes tags x l y) : ∃ z, reqStep recipes tags x z := by
  cases l with
  | nil => exact ⟨y, h⟩
  | cons z t => exact ⟨z, h.1⟩

/-- Claim C2 (cycle termination): on any registry with positive output and
ingredient counts in which A transitively requires itself, (i) both
traversals return within the registry-size fuel bound on every input (no
unbounded recursion), (ii) resolving (A, q) returns A itself among the raw
materials with a strictly positive quantity while recording exactly one
step for A (none for the cyclic re-entry), and (iii) when the recipe of A
is exactly one self-ingredient of count c, the result is precisely the raw
contribution c * q / outputCount demanded at the point of re-entry, with
the single parent step. -/
theorem C2_cycle_termination (recipes : Registry) (tags : Tags)
    (hpos : ∀ p ∈ recipes, 0 < output_count p.2 ∧
      ∀ ing ∈ get_ingredients_from_recipe tags p.2, 0 < ing.2)
    (A : J) (hA : canon A = A)
    (hcyc : Relation.TransGen (reqStep recipes tags) A A)
    (q : Rat) (hq : 0 < q) :
    (∀ (x : J) (qq : Rat) (P : List J) (M : Memo),
      (calcStepsF recipes tags (fuelFor recipes) x qq P).isSome ∧
      (calcRawF recipes tags (fuelFor recipes) x qq P M).isSome) ∧
    (∃ out, calcStepsF recipes tags (fuelFor recipes) A q [] = some out ∧
      0 < Cnt.get out.1 A ∧
      out.2.countP (fun st => st.item = A) = 1) ∧
    (∀ r i0 c, assocGet recipes A = some r →
      get_ingredients_from_recipe tags r = [(i0, c)] → canon i0 = A →
      calcStepsF recipes tags (fuelFor recipes) A q []
        = some ([(A, (c : Rat) * (q / ((output_count r : Int) : Rat)))],
            [Step.mk A q ((r.get "type").getD (.s "unknown"))
              [(A, (c : Rat) * (q / ((output_count r : Int) : Rat)))]])) := by
  obtain ⟨l0, hl0⟩ := transGen_to_chain _ _ hcyc
  obtain ⟨l, hlch, hAl, hlnd⟩ := chain_shorten _ _ A l0.length l0 le_rfl hl0
  obtain ⟨z0, r, hr, p0, hp0mem, -⟩ :
      ∃ z0 r, assocGet recipes A = some r ∧
        ∃ p ∈ get_ingredients_from_recipe tags r, canon p.1 = z0 := by
    obtain ⟨z0, r, hr, p, hp, hpc⟩ := chain_head recipes tags hlch
    exact ⟨z0, r, hr, p, hp, hpc⟩
  refine ⟨?_, ?_, ?_⟩
  · intro x qq P M
    exact ⟨calcStepsF_isSome _ _ _ _ _ _ (unvisited_lt_fuelFor _ _),
      calcRawF_isSome _ _ _ _ _ _ _ (unvisited_lt_fuelFor _ _)⟩
  · have hsome := calcStepsF_isSome recipes tags (fuelFor recipes) A q []
      (unvisited_lt_fuelFor _ _)
    obtain ⟨out, hout⟩ := Option.isSome_iff_exists.mp hsome
    refine ⟨out, hout, ?_, ?_⟩
    · exact calcStepsF_chain_reach recipes tags hpos A l (fuelFor recipes)
        A q [] out hlch hA (by simp) (by simp)
        (fun y hy => by
          simp only [List.mem_cons, List.not_mem_nil, or_false]
          intro hyA
          rw [hyA] at hy
          exact hAl hy)
        hAl hlnd hq hout
    · have hout2 := hout
      rw [show fuelFor recipes = recipes.length + 1 from rfl, calcStepsF, hA,
        if_neg (by simp), hr] at hout2
      dsimp only at hout2
      have hne : get_ingredients_from_recipe tags r ≠ [] :=
        List.ne_nil_of_mem hp0mem
      rw [if_neg (by simpa using hne)] at hout2
      obtain ⟨subs, hmap, -, hsteps⟩ := stepsFold_some _ _ _ _ hout2
      rw [hsteps]
      rw [List.countP_append]
      have h1 : List.countP (fun st => decide (st.item = A))
          ([Step.mk A q ((r.get "type").getD (J.s "unknown"))
            ((get_ingredients_from_recipe tags r).map
              (fun ing => (canon ing.1,
                (ing.2 : Rat) * (q / ((output_count r : Int) : Rat)))))]) = 1 := by
        simp [List.countP_cons]
      have h2 : List.countP (fun st => decide (st.item = A))
          ((subs.map (fun s => s.2)).flatten) = 0 := by
        rw [List.countP_eq_zero]
        intro st hst
        obtain ⟨stl, hstl, hstin⟩ := List.mem_flatten.mp hst
        obtain ⟨sub, hsub, hseq⟩ := List.mem_map.mp hstl
        obtain ⟨ing, hingmem, hing⟩ : ∃ ing ∈ get_ingredients_from_recipe tags r,
            calcStepsF recipes tags recipes.length (canon ing.1)
              ((ing.2 : Rat) * (q / ((output_count r : Int) : Rat)))
              (A :: []) = some sub := by
          have hmem2 : some sub ∈ subs.map some := List.mem_map_of_mem _ hsub
          rw [← hmap] at hmem2
          obtain ⟨ing, hi1, hi2⟩ := List.mem_map.mp hmem2
          exact ⟨ing, hi1, hi2⟩
        have hne2 := calcStepsF_no_step_on_path recipes tags A recipes.length
          (canon ing.1) _ (A :: []) sub (by simp) hing st
          (by rw [← hseq] at hstin; exact hstin)
        simpa using hne2
      rw [h1, h2]
  · intro r' i0 c hr' hing1 hci0
    have hlen : ∃ m, recipes.length = m + 1 := by
      cases recipes with
      | nil => exact absurd hr' (by simp [assocGet])
      | cons hd tl => exact ⟨tl.length, by simp⟩
    obtain ⟨m, hm⟩ := hlen
    rw [show fuelFor recipes = recipes.length + 1 from rfl, hm]
    rw [calcStepsF, hA, if_neg (by simp), hr']
    dsimp only
    rw [hing1]
    rw [if_neg (by simp)]
    simp only [List.foldl_cons, List.foldl_nil, Option.some_bind]
    rw [calcStepsF, hci0, hA, if_pos (by simp)]
    simp only [Option.map_some', Option.some_bind]
    simp [Cnt.update, Cnt.addOne, hci0]

/-- Witness for C2 on the one-recipe self-cycle registry at q = 6. -/
theorem C2_cycle_termination_witness :
    (0 : Rat) < 6 ∧ canon (J.s "a") = J.s "a" ∧
      (∃ out, calcStepsF cycReg [] (fuelFor cycReg) (J.s "a") 6 [] = some out ∧
        0 < Cnt.get out.1 (J.s "a") ∧
        out.2.countP (fun st => st.item = J.s "a") = 1) := by
  have hstep : reqStep cycReg [] (J.s "a") (J.s "a") :=
    ⟨(assocGet cycReg (J.s "a")).getD .null, by decide,
      (J.s "a", 1), by decide, by decide⟩
  refine ⟨by norm_num, by decide, ?_⟩
  exact (C2_cycle_termination cycReg [] (by decide) (J.s "a") (by decide)
    (Relation.TransGen.single hstep) 6 (by norm_num)).2.1

/-! Division-safety flags (Claims C10 and C5). -/

theorem rawSafeFold_flag
    (c : Memo → (J × Int) → Option (Cnt × Memo × Bool)) (l : List (J × Int))
    (hc : ∀ m ing, ing ∈ l → ∀ s, c m ing = some s → s.2.2 = true) :
    ∀ (a out : Cnt × Memo × Bool), a.2.2 = true →
      l.foldl
        (fun acc ing => acc.bind (fun rm => (c rm.2.1 ing).map
          (fun sub => (Cnt.update rm.1 sub.1, sub.2.1, rm.2.2 && sub.2.2))))
        (some a) = some out → out.2.2 = true := by
  induction l with
  | nil =>
    intro a out ha h
    simp at h
    rw [← h]
    exact ha
  | cons ing t ih =>
    intro a out ha h
    simp only [List.foldl_cons, Option.some_bind] at h
    cases hc0 : c a.2.1 ing with
    | none =>
      rw [hc0] at h
      simp only [Option.map_none'] at h
      rw [foldBind_none (g := fun rm ing => c rm.2.1 ing)
        (h := fun rm _ sub => (Cnt.update rm.1 sub.1, sub.2.1, rm.2.2 && sub.2.2))] at h
      exact Option.noConfusion h
    | some s =>
      rw [hc0] at h
      simp only [Option.map_some'] at h
      refine ih (fun m x hx => hc m x (List.mem_cons_of_mem _ hx))
        (Cnt.update a.1 s.1, s.2.1, a.2.2 && s.2.2) out ?_ h
      rw [show (Cnt.update a.1 s.1, s.2.1, a.2.2 && s.2.2).2.2
        = (a.2.2 && s.2.2) from rfl, ha, hc a.2.1 ing (by simp) s hc0]
      rfl

theorem stepsSafeFold_flag
    (c : (J × Int) → Option (Cnt × List Step × Bool)) (l : List (J × Int))
    (hc : ∀ ing, ing ∈ l → ∀ s, c ing = some s → s.2.2 = true) :
    ∀ (a out : Cnt × List Step × Bool), a.2.2 = true →
      l.foldl
        (fun acc ing => acc.bind (fun rs => (c ing).map
          (fun sub => (Cnt.update rs.1 sub.1, rs.2.1 ++ sub.2.1, rs.2.2 && sub.2.2))))
        (some a) = some out → out.2.2 = true := by
  induction l with
  | nil =>
    intro a out ha h
    simp at h
    rw [← h]
    exact ha
  | cons ing t ih =>
    intro a out ha h
    simp only [List.foldl_cons, Option.some_bind] at h
    cases hc0 : c ing with
    | none =>
      rw [hc0] at h
      simp only [Option.map_none'] at h
      rw [foldBind_none (g := fun (rs : Cnt × List Step × Bool) ing => c ing)
        (h := fun rs _ sub =>
          (Cnt.update rs.1 sub.1, rs.2.1 ++ sub.2.1, rs.2.2 && sub.2.2))] at h
      exact Option.noConfusion h
    | some s =>
      rw [hc0] at h
      simp only [Option.map_some'] at h
      refine ih (fun x hx => hc x (List.mem_cons_of_mem _ hx))
        (Cnt.update a.1 s.1, a.2.1 ++ s.2.1, a.2.2 && s.2.2) out ?_ h
      rw [show (Cnt.update a.1 s.1, a.2.1 ++ s.2.1, a.2.2 && s.2.2).2.2
        = (a.2.2 && s.2.2) from rfl, ha, hc ing (by simp) s hc0]
      rfl

/-- With nonzero output counts, nonzero extracted ingredient counts, and a
nonzero request quantity, the totals-only traversal performs no division
by zero. -/
theorem calcRawSafeF_flag (recipes : Registry) (tags : Tags)
    (houts : ∀ p ∈ recipes, output_count p.2 ≠ 0)
    (hings : ∀ p ∈ recipes, ∀ ing ∈ get_ingredients_from_recipe tags p.2,
      ing.2 ≠ 0) :
    ∀ (fuel : Nat) (x : J) (q : Rat) (P : List J) (M : Memo)
      (out : Cnt × Memo × Bool), q ≠ 0 →
      calcRawSafeF recipes tags fuel x q P M = some out → out.2.2 = true := by
  intro fuel
  induction fuel with
  | zero => intro x q P M out hq h; exact absurd h (by simp [calcRawSafeF])
  | succ n ih =>
    intro x q P M out hq h
    rw [calcRawSafeF] at h
    rcases Option.eq_none_or_eq_some (assocGet M (canon x)) with hmm | ⟨base, hmm⟩
    · rw [hmm] at h
      dsimp only at h
      by_cases hmem : canon x ∈ P
      · rw [if_pos hmem] at h
        simp at h
        rw [← h]
      · rw [if_neg hmem] at h
        rcases Option.eq_none_or_eq_some (assocGet recipes (canon x))
          with hrec | ⟨recipe, hrec⟩
        · rw [hrec] at h
          simp at h
          rw [← h]
        · rw [hrec] at h
          dsimp only at h
          have hout : output_count recipe ≠ 0 := houts _ (assocGet_mem hrec)
          by_cases hempty : ((get_ingredients_from_recipe tags recipe).isEmpty
              && !supportedType (rtypeOf recipe)) = true
          · rw [if_pos hempty] at h
            simp at h
            rw [← h]
            simpa using hout
          · rw [if_neg hempty] at h
            cases hfr : (get_ingredients_from_recipe tags recipe).foldl
                (fun acc ing => acc.bind (fun rm =>
                  (calcRawSafeF recipes tags n (canon ing.1)
                    ((ing.2 : Rat) * (q / ((output_count recipe : Int) : Rat)))
                    (canon x :: P) rm.2.1).map
                  (fun sub => (Cnt.update rm.1 sub.1, sub.2.1, rm.2.2 && sub.2.2))))
                (some (([] : Cnt), M, true)) with
            | none =>
              rw [hfr] at h
              exact Option.noConfusion h
            | some fout =>
              rw [hfr] at h
              simp at h
              have hflag : fout.2.2 = true := by
                refine rawSafeFold_flag
                  (c := fun m ing => calcRawSafeF recipes tags n (canon ing.1)
                    ((ing.2 : Rat) * (q / ((output_count recipe : Int) : Rat)))
                    (canon x :: P) m)
                  _ ?_ (([] : Cnt), M, true) fout rfl hfr
                intro m ing hing s hs
                have hqc : (ing.2 : Rat)
                    * (q / ((output_count recipe : Int) : Rat)) ≠ 0 := by
                  apply mul_ne_zero
                  · exact_mod_cast hings _ (assocGet_mem hrec) ing hing
                  · apply div_ne_zero hq
                    exact_mod_cast hout
                exact ih _ _ _ _ _ hqc hs
              rw [← h]
              dsimp only
              rw [hflag]
              simp [hout, hq]
    · rw [hmm] at h
      dsimp only at h
      simp at h
      rw [← h]

/-- With nonzero output counts alone, the steps traversal (hence analyze)
performs no division by zero, for every item and quantity. -/
theorem calcStepsSafeF_flag (recipes : Registry) (tags : Tags)
    (houts : ∀ p ∈ recipes, output_count p.2 ≠ 0) :
    ∀ (fuel : Nat) (x : J) (q : Rat) (P : List J)
      (out : Cnt × List Step × Bool),
      calcStepsSafeF recipes tags fuel x q P = some out → out.2.2 = true := by
  intro fuel
  induction fuel with
  | zero => intro x q P out h; exact absurd h (by simp [calcStepsSafeF])
  | succ n ih =>
    intro x q P out h
    rw [calcStepsSafeF] at h
    by_cases hmem : canon x ∈ P
    · rw [if_pos hmem] at h
      simp at h
      rw [← h]
    · rw [if_neg hmem] at h
      rcases Option.eq_none_or_eq_some (assocGet recipes (canon x))
        with hrec | ⟨recipe, hrec⟩
      · rw [hrec] at h
        simp at h
        rw [← h]
      · rw [hrec] at h
        dsimp only at h
        have hout : output_count recipe ≠ 0 := houts _ (assocGet_mem hrec)
        by_cases hempty : (get_ingredients_from_recipe tags recipe).isEmpty = true
        · rw [if_pos hempty] at h
          simp at h
          rw [← h]
          simpa using hout
        · rw [if_neg hempty] at h
          refine stepsSafeFold_flag
            (c := fun ing => calcStepsSafeF recipes tags n (canon ing.1)
              ((ing.2 : Rat) * (q / ((output_count recipe : Int) : Rat)))
              (canon x :: P))
            _ ?_ _ out (by simpa using hout) h
          intro ing hing s hs
          exact ih _ _ _ _ hs

/-- Counterexample to Claim C10 as stated: a registry whose recipes all
have positive output counts, resolved at quantity 1 (nonzero), still
divides by zero, because a zero extracted ingredient count propagates a
zero quantity into the per-unit memo store. -/
theorem C10_division_safety_counterexample :
    (∀ p ∈ engineRecipes zeroCountReg, 0 < output_count p.2) ∧
      (1 : Rat) ≠ 0 ∧
      (calcRawSafeF (engineRecipes zeroCountReg) []
          (fuelFor (engineRecipes zeroCountReg)) (.s "za") 1 [] []).map
        (fun o => o.2.2) = some false := by
  refine ⟨by decide, by norm_num, by with_unfolding_all decide⟩

/-- Claim C10 as amended: when every output count is nonzero, every
extracted ingredient count is nonzero, and the request quantity is
nonzero, calculate_raw_materials returns normally with no division by
zero; the steps traversal behind analyze needs only the output-count
condition (its sole division site), for every item and quantity — the
quantity condition is needed exactly because the memo store divides the
accumulated totals by the request quantity. -/
theorem C10_division_safety (recipes_data : Registry) (tags : Tags)
    (houts : ∀ p ∈ engineRecipes recipes_data, output_count p.2 ≠ 0)
    (hings : ∀ p ∈ engineRecipes recipes_data,
      ∀ ing ∈ get_ingredients_from_recipe tags p.2, ing.2 ≠ 0)
    (item : J) (q : Rat) (hq : q ≠ 0) :
    (∃ out, calcRawSafeF (engineRecipes recipes_data) tags
        (fuelFor (engineRecipes recipes_data)) item q [] [] = some out ∧
      out.2.2 = true) ∧
    (∀ (it : J) (qq : Rat), ∃ out,
      calcStepsSafeF (engineRecipes recipes_data) tags
        (fuelFor (engineRecipes recipes_data)) it qq [] = some out ∧
      out.2.2 = true) := by
  constructor
  · obtain ⟨out, hout⟩ := Option.isSome_iff_exists.mp
      (calcRawSafeF_isSome (engineRecipes recipes_data) tags
        (fuelFor (engineRecipes recipes_data)) item q [] []
        (unvisited_lt_fuelFor _ _))
    exact ⟨out, hout,
      calcRawSafeF_flag _ _ houts hings _ _ _ _ _ _ hq hout⟩
  · intro it qq
    obtain ⟨out, hout⟩ := Option.isSome_iff_exists.mp
      (calcStepsSafeF_isSome (engineRecipes recipes_data) tags
        (fuelFor (engineRecipes recipes_data)) it qq []
        (unvisited_lt_fuelFor _ _))
    exact ⟨out, hout, calcStepsSafeF_flag _ _ houts _ _ _ _ _ hout⟩

/-- Witness for the amended C10 on the stick/plank/log chain at q = 2. -/
theorem C10_division_safety_witness :
    (∀ p ∈ engineRecipes chainReg, output_count p.2 ≠ 0) ∧
      (∀ p ∈ engineRecipes chainReg,
        ∀ ing ∈ get_ingredients_from_recipe [] p.2, ing.2 ≠ 0) ∧
      (2 : Rat) ≠ 0 ∧
      ((∃ out, calcRawSafeF (engineRecipes chainReg) []
          (fuelFor (engineRecipes chainReg)) (.s "stick") 2 [] [] = some out ∧
        out.2.2 = true) ∧
      (∀ (it : J) (qq : Rat), ∃ out,
        calcStepsSafeF (engineRecipes chainReg) []
          (fuelFor (engineRecipes chainReg)) it qq [] = some out ∧
        out.2.2 = true)) :=
  ⟨by decide, by decide, by norm_num,
    C10_division_safety chainReg [] (by decide) (by decide) (.s "stick") 2
      (by norm_num)⟩

/-- Counterexample to Claim C5 as stated: the totals-only traversal does
not treat an unrecognized-shape recipe with a supported declared type as a
raw material (it returns an empty contribution instead of the single
entry), and an unsupported-schema recipe with a zero output count makes a
division by zero propagate to the caller. -/
theorem C5_unsupported_schema_counterexample :
    get_ingredients_from_recipe [] emptyShapedRecipe = [] ∧
      ((calcRawF (engineRecipes emptyShapedReg) []
          (fuelFor (engineRecipes emptyShapedReg)) (.s "m:x") 5 [] []).map
        (fun rm => Cnt.get rm.1 (.s "m:x")) = some 0 ∧ (0 : Rat) ≠ 5) ∧
      (calcRawSafeF (engineRecipes mzReg) [] (fuelFor (engineRecipes mzReg))
          (.s "m:z") 3 [] []).map (fun o => o.2.2) = some false := by
  refine ⟨by decide, ⟨by with_unfolding_all decide, by norm_num⟩,
    by with_unfolding_all decide⟩

/-- Claim C5 as amended: a parsed but shape-unrecognized recipe resolves
as a raw material in the steps-producing traversal; the totals-only
traversal does so when additionally the declared type is not a supported
crafting kind; and with nonzero output counts the resolution behind
analyze raises nothing (no division by zero) for every target — including
unsupported-schema, cycle, and unknown-target conditions. -/
theorem C5_unsupported_schema (recipes_data : Registry) (tags : Tags) :
    (∀ (item recipe : J) (q : Rat), canon item = item →
      assocGet (engineRecipes recipes_data) item = some recipe →
      get_ingredients_from_recipe tags recipe = [] →
      calculate_with_steps recipes_data tags item q = ([(item, q)], [])) ∧
    (∀ (item recipe : J) (q : Rat), canon item = item →
      assocGet (engineRecipes recipes_data) item = some recipe →
      get_ingredients_from_recipe tags recipe = [] →
      supportedType (rtypeOf recipe) = false →
      calculate_raw_materials recipes_data tags item q = ([(item, q)], [])) ∧
    ((∀ p ∈ engineRecipes recipes_data, output_count p.2 ≠ 0) →
      ∀ (item : J) (q : Rat), ∃ out,
        calcStepsSafeF (engineRecipes recipes_data) tags
          (fuelFor (engineRecipes recipes_data)) item q [] = some out ∧
        out.2.2 = true) := by
  refine ⟨?_, ?_, ?_⟩
  · intro item recipe q hcanon hrec hings
    unfold calculate_with_steps
    rw [show fuelFor (engineRecipes recipes_data)
      = (engineRecipes recipes_data).length + 1 from rfl]
    rw [calcStepsF, hcanon, if_neg (by simp), hrec]
    dsimp only
    rw [hings]
    rfl
  · intro item recipe q hcanon hrec hings hsup
    unfold calculate_raw_materials
    rw [show fuelFor (engineRecipes recipes_data)
      = (engineRecipes recipes_data).length + 1 from rfl]
    rw [calcRawF, hcanon]
    rw [show assocGet ([] : Memo) item = none from rfl]
    dsimp only
    rw [if_neg (by simp), hrec]
    dsimp only
    rw [hings]
    rw [if_pos (by simp [hsup])]
    rfl
  · intro houts item q
    obtain ⟨out, hout⟩ := Option.isSome_iff_exists.mp
      (calcStepsSafeF_isSome (engineRecipes recipes_data) tags
        (fuelFor (engineRecipes recipes_data)) item q []
        (unvisited_lt_fuelFor _ _))
    exact ⟨out, hout, calcStepsSafeF_flag _ _ houts _ _ _ _ _ hout⟩

/-- Witness for the amended C5 on the unrecognized-shape registry. -/
theorem C5_unsupported_schema_witness :
    canon (.s "m:x") = (J.s "m:x") ∧
      assocGet (engineRecipes emptyShapedReg) (.s "m:x")
        = some emptyShapedRecipe ∧
      get_ingredients_from_recipe [] emptyShapedRecipe = [] ∧
      calculate_with_steps emptyShapedReg [] (.s "m:x") 5
        = ([(.s "m:x", 5)], []) := by
  refine ⟨by decide, by decide, by decide, ?_⟩
  exact (C5_unsupported_schema emptyShapedReg []).1 (.s "m:x")
    emptyShapedRecipe 5 (by decide) (by decide) (by decide)

/-! Path irrelevance and totals agreement (Claim C9). -/

theorem calcStepsF_path_irrel (recipes : Registry) (tags : Tags)
    (rank : J → Nat)
    (hrank : ∀ p ∈ recipes, ∀ ing ∈ get_ingredients_from_recipe tags p.2,
      rank (canon ing.1) < rank p.1) :
    ∀ (fuel : Nat) (x : J) (q : Rat) (P1 P2 : List J),
      (∀ p ∈ P1, rank (canon x) < rank p) →
      (∀ p ∈ P2, rank (canon x) < rank p) →
      calcStepsF recipes tags fuel x q P1 = calcStepsF recipes tags fuel x q P2 := by
  intro fuel
  induction fuel with
  | zero => intro x q P1 P2 h1 h2; rfl
  | succ n ih =>
    intro x q P1 P2 h1 h2
    rw [calcStepsF, calcStepsF]
    have hn1 : canon x ∉ P1 := fun hm => lt_irrefl _ (h1 _ hm)
    have hn2 : canon x ∉ P2 := fun hm => lt_irrefl _ (h2 _ hm)
    rw [if_neg hn1, if_neg hn2]
    rcases Option.eq_none_or_eq_some (assocGet recipes (canon x))
      with hrec | ⟨recipe, hrec⟩
    · rw [hrec]
    · rw [hrec]
      dsimp only
      by_cases hempty : (get_ingredients_from_recipe tags recipe).isEmpty = true
      · rw [if_pos hempty, if_pos hempty]
      · rw [if_neg hempty, if_neg hempty]
        have hchild : ∀ ing ∈ get_ingredients_from_recipe tags recipe,
            calcStepsF recipes tags n (canon ing.1)
              ((ing.2 : Rat) * (q / ((output_count recipe : Int) : Rat)))
              (canon x :: P1)
            = calcStepsF recipes tags n (canon ing.1)
              ((ing.2 : Rat) * (q / ((output_count recipe : Int) : Rat)))
              (canon x :: P2) := by
          intro ing hing
          have hlt : rank (canon (canon ing.1)) < rank (canon x) := by
            rw [canon_idem]
            exact hrank _ (assocGet_mem hrec) ing hing
          apply ih
          · intro p hp
            rcases List.mem_cons.mp hp with hpc | hpm
            · rw [hpc]; exact hlt
            · exact lt_trans hlt (h1 _ hpm)
          · intro p hp
            rcases List.mem_cons.mp hp with hpc | hpm
            · rw [hpc]; exact hlt
            · exact lt_trans hlt (h2 _ hpm)
        exact @stepsFold_congr (fun ing =>
            calcStepsF recipes tags n (canon ing.1)
              ((ing.2 : Rat) * (q / ((output_count recipe : Int) : Rat)))
              (canon x :: P1))
          (fun ing =>
            calcStepsF recipes tags n (canon ing.1)
              ((ing.2 : Rat) * (q / ((output_count recipe : Int) : Rat)))
              (canon x :: P2))
          _ hchild _

/-- Two successful runs of the steps traversal at any two fuels agree. -/
theorem calcStepsF_agree (recipes : Registry) (tags : Tags)
    {f1 f2 : Nat} {x : J} {q : Rat} {P : List J} {v1 v2 : Cnt × List Step}
    (h1 : calcStepsF recipes tags f1 x q P = some v1)
    (h2 : calcStepsF recipes tags f2 x q P = some v2) : v1 = v2 := by
  have e1 := calcStepsF_mono recipes tags f1 (max f1 f2) (le_max_left _ _)
    _ _ _ _ h1
  have e2 := calcStepsF_mono recipes tags f2 (max f1 f2) (le_max_right _ _)
    _ _ _ _ h2
  rw [e1] at e2
  exact Option.some.inj e2

/-- A successful steps run at any fuel, from any path below the item in
rank, computes the per-unit steps totals scaled by the quantity. -/
theorem calcStepsF_to_unit (recipes : Registry) (tags : Tags)
    (rank : J → Nat)
    (hrank : ∀ p ∈ recipes, ∀ ing ∈ get_ingredients_from_recipe tags p.2,
      rank (canon ing.1) < rank p.1)
    {n : Nat} {x : J} {q : Rat} {P : List J} {s : Cnt} {st : List Step}
    (hP : ∀ p ∈ P, rank (canon x) < rank p)
    (h : calcStepsF recipes tags n x q P = some (s, st)) :
    ∀ j, Cnt.get s j = Cnt.get (stepsUnit recipes tags (canon x)) j * q := by
  intro j
  have hs := calcStepsF_scale recipes tags n x q 1 P
  rw [mul_one] at hs
  rw [hs] at h
  rcases Option.eq_none_or_eq_some (calcStepsF recipes tags n x 1 P)
    with h0 | ⟨v1, h0⟩
  · rw [h0] at h
    simp at h
  · rw [h0] at h
    simp only [Option.map_some'] at h
    have hsEq : s = scale_counter v1.1 q :=
      (congrArg Prod.fst (Option.some.inj h)).symm
    have hirrel := calcStepsF_path_irrel recipes tags rank hrank n x 1 P []
      hP (by intro p hp; exact absurd hp (List.not_mem_nil p))
    rw [hirrel] at h0
    have hcce := calcStepsF_congr_item recipes tags
      (canon_idem x).symm n 1 ([] : List J)
    rw [hcce] at h0
    have hful : (calcStepsF recipes tags (fuelFor recipes) (canon x) 1 []).isSome :=
      calcStepsF_isSome recipes tags _ _ _ _ (unvisited_lt_fuelFor recipes [])
    rcases Option.isSome_iff_exists.mp hful with ⟨v2, hv2⟩
    have hagree := calcStepsF_agree recipes tags h0 hv2
    have hsu : stepsUnit recipes tags (canon x) = v2.1 := by
      unfold stepsUnit
      rw [hv2]
      rfl
    rw [hsEq, Cnt.get_scale, hsu, hagree]

/-- Generic equivalence of the raw (memo-threading) and steps ingredient
folds: if every child agrees pointwise and preserves a memo invariant, so
do the folds. -/
theorem equivFold (compat : Memo → Prop)
    (cR : Memo → (J × Int) → Option (Cnt × Memo))
    (cS : (J × Int) → Option (Cnt × List Step))
    (l : List (J × Int))
    (hch : ∀ (m : Memo) (ing : J × Int), ing ∈ l → compat m →
      ∀ v : Cnt × List Step, cS ing = some v →
      ∃ w : Cnt × Memo, cR m ing = some w ∧
        (∀ j, Cnt.get w.1 j = Cnt.get v.1 j) ∧ compat w.2) :
    ∀ (aR : Cnt × Memo) (aS outS : Cnt × List Step),
      compat aR.2 → (∀ j, Cnt.get aR.1 j = Cnt.get aS.1 j) →
      l.foldl
        (fun acc ing => acc.bind (fun rs => (cS ing).map
          (fun sub => (Cnt.update rs.1 sub.1, rs.2 ++ sub.2))))
        (some aS) = some outS →
      ∃ outR : Cnt × Memo,
        l.foldl
          (fun acc ing => acc.bind (fun rm => (cR rm.2 ing).map
            (fun sub => (Cnt.update rm.1 sub.1, sub.2))))
          (some aR) = some outR ∧
        (∀ j, Cnt.get outR.1 j = Cnt.get outS.1 j) ∧ compat outR.2 := by
  induction l with
  | nil =>
    intro aR aS outS hc hg hf
    refine ⟨aR, rfl, ?_, hc⟩
    have he : aS = outS := Option.some.inj hf
    intro j
    rw [← he]
    exact hg j
  | cons ing t ih =>
    intro aR aS outS hc hg hf
    simp only [List.foldl_cons, Option.some_bind] at hf ⊢
    rcases Option.eq_none_or_eq_some (cS ing) with hcs | ⟨v, hcs⟩
    · rw [hcs] at hf
      simp only [Option.map_none'] at hf
      rw [stepsFold_none] at hf
      exact Option.noConfusion hf
    · rw [hcs] at hf
      simp only [Option.map_some'] at hf
      obtain ⟨w, hw, hwg, hwc⟩ := hch aR.2 ing (by simp) hc v hcs
      rw [hw]
      simp only [Option.map_some']
      exact ih
        (fun m x hx hcx v2 hv2 => hch m x (List.mem_cons_of_mem _ hx) hcx v2 hv2)
        (Cnt.update aR.1 w.1, w.2) (Cnt.update aS.1 v.1, aS.2 ++ v.2) outS hwc
        (fun j => by
          show Cnt.get (Cnt.update aR.1 w.1) j = Cnt.get (Cnt.update aS.1 v.1) j
          rw [Cnt.get_update, Cnt.get_update, hg j, hwg j])
        hf

/-- Under rank acyclicity, no supported-type recipe with an unrecognized
shape, nonzero ingredient counts, nonzero output counts and a nonzero
quantity, the memoized totals-only traversal agrees pointwise with the
steps traversal and preserves memo compatibility. -/
theorem calcEquivF (recipes : Registry) (tags : Tags) (rank : J → Nat)
    (hrank : ∀ p ∈ recipes, ∀ ing ∈ get_ingredients_from_recipe tags p.2,
      rank (canon ing.1) < rank p.1)
    (hne : ∀ p ∈ recipes, get_ingredients_from_recipe tags p.2 = [] →
      supportedType (rtypeOf p.2) = false)
    (hings : ∀ p ∈ recipes, ∀ ing ∈ get_ingredients_from_recipe tags p.2,
      ing.2 ≠ 0)
    (houts : ∀ p ∈ recipes, output_count p.2 ≠ 0) :
    ∀ (fuel : Nat) (x : J) (q : Rat) (P : List J) (M : Memo)
      (s : Cnt) (st : List Step),
      q ≠ 0 →
      (∀ p ∈ P, rank (canon x) < rank p) →
      MemoCompat recipes tags M →
      calcStepsF recipes tags fuel x q P = some (s, st) →
      ∃ r M', calcRawF recipes tags fuel x q P M = some (r, M') ∧
        (∀ j, Cnt.get r j = Cnt.get s j) ∧ MemoCompat recipes tags M' := by
  intro fuel
  induction fuel with
  | zero =>
    intro x q P M s st hq hP hM h
    simp [calcStepsF] at h
  | succ n ih =>
    intro x q P M s st hq hP hM h
    have hsunit := calcStepsF_to_unit recipes tags rank hrank hP h
    rcases Option.eq_none_or_eq_some (assocGet M (canon x))
      with hmm | ⟨base, hmm⟩
    · rw [calcStepsF] at h
      by_cases hmem : canon x ∈ P
      · rw [if_pos hmem] at h
        have hs1 : s = [(canon x, q)] :=
          (congrArg Prod.fst (Option.some.inj h)).symm
        refine ⟨[(canon x, q)], M, ?_, ?_, hM⟩
        · rw [calcRawF, hmm]
          dsimp only
          rw [if_pos hmem]
        · intro j
          rw [hs1]
      · rw [if_neg hmem] at h
        rcases Option.eq_none_or_eq_some (assocGet recipes (canon x))
          with hrec | ⟨recipe, hrec⟩
        · rw [hrec] at h
          dsimp only at h
          have hs1 : s = [(canon x, q)] :=
            (congrArg Prod.fst (Option.some.inj h)).symm
          refine ⟨[(canon x, q)], M, ?_, ?_, hM⟩
          · rw [calcRawF, hmm]
            dsimp only
            rw [if_neg hmem, hrec]
          · intro j
            rw [hs1]
        · rw [hrec] at h
          dsimp only at h
          by_cases hempty : (get_ingredients_from_recipe tags recipe).isEmpty = true
          · rw [if_pos hempty] at h
            have hnil : get_ingredients_from_recipe tags recipe = [] := by
              rcases h' : get_ingredients_from_recipe tags recipe with _ | ⟨a, t⟩
              · rfl
              · rw [h'] at hempty
                simp [List.isEmpty] at hempty
            have hsup : supportedType (rtypeOf recipe) = false :=
              hne _ (assocGet_mem hrec) hnil
            have hs1 : s = [(canon x, q)] :=
              (congrArg Prod.fst (Option.some.inj h)).symm
            refine ⟨[(canon x, q)], M, ?_, ?_, hM⟩
            · rw [calcRawF, hmm]
              dsimp only
              rw [if_neg hmem, hrec]
              dsimp only
              rw [if_pos (by rw [hempty, hsup]; rfl)]
            · intro j
              rw [hs1]
          · rw [if_neg hempty] at h
            have hcond :
                ¬(((get_ingredients_from_recipe tags recipe).isEmpty
                  && !supportedType (rtypeOf recipe)) = true) := by
              intro hc
              rw [Bool.and_eq_true] at hc
              exact hempty hc.1
            have hch : ∀ (m : Memo) (ing : J × Int),
                ing ∈ get_ingredients_from_recipe tags recipe →
                MemoCompat recipes tags m →
                ∀ v : Cnt × List Step,
                  calcStepsF recipes tags n (canon ing.1)
                    ((ing.2 : Rat) * (q / ((output_count recipe : Int) : Rat)))
                    (canon x :: P) = some v →
                  ∃ w : Cnt × Memo,
                    calcRawF recipes tags n (canon ing.1)
                      ((ing.2 : Rat) * (q / ((output_count recipe : Int) : Rat)))
                      (canon x :: P) m = some w ∧
                    (∀ j, Cnt.get w.1 j = Cnt.get v.1 j) ∧
                    MemoCompat recipes tags w.2 := by
              intro m ing hing hcm v hv
              obtain ⟨sv, stv⟩ := v
              have hq' : (ing.2 : Rat)
                  * (q / ((output_count recipe : Int) : Rat)) ≠ 0 := by
                have h1 : (ing.2 : Rat) ≠ 0 := by
                  exact_mod_cast hings _ (assocGet_mem hrec) ing hing
                have h2 : ((output_count recipe : Int) : Rat) ≠ 0 := by
                  exact_mod_cast houts _ (assocGet_mem hrec)
                exact mul_ne_zero h1 (div_ne_zero hq h2)
              have hlt : rank (canon (canon ing.1)) < rank (canon x) := by
                rw [canon_idem]
                exact hrank _ (assocGet_mem hrec) ing hing
              have hP' : ∀ p ∈ canon x :: P,
                  rank (canon (canon ing.1)) < rank p := by
                intro p hp
                rcases List.mem_cons.mp hp with hpc | hpm
                · rw [hpc]; exact hlt
                · exact lt_trans hlt (hP _ hpm)
              obtain ⟨r', m', hcalc', hg', hc'⟩ :=
                ih (canon ing.1) _ (canon x :: P) m sv stv hq' hP' hcm hv
              exact ⟨(r', m'), hcalc', hg', hc'⟩
            obtain ⟨outR, hfoldR, hgR, hcR⟩ :=
              equivFold (MemoCompat recipes tags)
                (fun m ing => calcRawF recipes tags n (canon ing.1)
                  ((ing.2 : Rat) * (q / ((output_count recipe : Int) : Rat)))
                  (canon x :: P) m)
                (fun ing => calcStepsF recipes tags n (canon ing.1)
                  ((ing.2 : Rat) * (q / ((output_count recipe : Int) : Rat)))
                  (canon x :: P))
                (get_ingredients_from_recipe tags recipe)
                hch
                (([] : Cnt), M)
                (([] : Cnt),
                  [Step.mk (canon x) q
                    ((recipe.get "type").getD (J.s "unknown"))
                    ((get_ingredients_from_recipe tags recipe).map
                      (fun ing => (canon ing.1,
                        (ing.2 : Rat)
                          * (q / ((output_count recipe : Int) : Rat)))))])
                (s, st)
                hM
                (fun j => rfl)
                h
            obtain ⟨raw, m'⟩ := outR
            dsimp only at hgR hcR
            have hfoldR' : (get_ingredients_from_recipe tags recipe).foldl
                (fun acc ing => acc.bind (fun rm =>
                  (calcRawF recipes tags n (canon ing.1)
                    ((ing.2 : Rat) * (q / ((output_count recipe : Int) : Rat)))
                    (canon x :: P) rm.2).map
                  (fun sub => (Cnt.update rm.1 sub.1, sub.2))))
                (some (([] : Cnt), M)) = some (raw, m') := hfoldR
            have hcalc : calcRawF recipes tags (n + 1) x q P M
                = some (raw, assocSet m' (canon x)
                    (scale_counter raw (1 / q))) := by
              rw [calcRawF, hmm]
              dsimp only
              rw [if_neg hmem, hrec]
              dsimp only
              rw [if_neg hcond]
              rw [hfoldR']
            refine ⟨raw, assocSet m' (canon x) (scale_counter raw (1 / q)),
              hcalc, hgR, ?_⟩
            intro k u hk
            by_cases hkx : k = canon x
            · subst hkx
              rw [assocGet_assocSet_self] at hk
              have hu : u = scale_counter raw (1 / q) :=
                (Option.some.inj hk).symm
              intro j
              rw [hu, Cnt.get_scale, hgR j, hsunit j, mul_assoc]
              have hq1 : q * (1 / q) = 1 := by
                rw [one_div]
                exact mul_inv_cancel₀ hq
              rw [hq1, mul_one]
            · intro j
              rw [assocGet_assocSet_ne _ _ _ _ hkx] at hk
              exact hcR k u hk j
    · refine ⟨scale_counter base q, M, ?_, ?_, hM⟩
      · rw [calcRawF, hmm]
      · intro j
        rw [Cnt.get_scale, hM (canon x) base hmm j, hsunit j]

/-- Claim C9 (totals agreement, amended): when some rank function certifies
the engine registry acyclic, no supported-type recipe has an unrecognized
shape, all extracted ingredient counts and all output counts are nonzero,
and the requested quantity is nonzero, the raw-material totals returned by
calculate_raw_materials and by calculate_with_steps agree pointwise. -/
theorem C9_totals_agreement (recipes_data : Registry) (tags : Tags)
    (rank : J → Nat)
    (hrank : ∀ p ∈ engineRecipes recipes_data,
      ∀ ing ∈ get_ingredients_from_recipe tags p.2,
        rank (canon ing.1) < rank p.1)
    (hne : ∀ p ∈ engineRecipes recipes_data,
      get_ingredients_from_recipe tags p.2 = [] →
      supportedType (rtypeOf p.2) = false)
    (hings : ∀ p ∈ engineRecipes recipes_data,
      ∀ ing ∈ get_ingredients_from_recipe tags p.2, ing.2 ≠ 0)
    (houts : ∀ p ∈ engineRecipes recipes_data, output_count p.2 ≠ 0)
    (item : J) (q : Rat) (hq : q ≠ 0) :
    ∀ j, Cnt.get (calculate_raw_materials recipes_data tags item q).1 j
      = Cnt.get (calculate_with_steps recipes_data tags item q).1 j := by
  intro j
  have hsome : (calcStepsF (engineRecipes recipes_data) tags
      (fuelFor (engineRecipes recipes_data)) item q []).isSome :=
    calcStepsF_isSome _ tags _ _ _ _ (unvisited_lt_fuelFor _ [])
  rcases Option.isSome_iff_exists.mp hsome with ⟨⟨s, st⟩, hs⟩
  obtain ⟨r, M', hr, hg, _⟩ :=
    calcEquivF (engineRecipes recipes_data) tags rank hrank hne hings houts
      _ item q [] [] s st hq
      (by intro p hp; exact absurd hp (List.not_mem_nil p))
      (by intro k u hk; simp [assocGet] at hk)
      hs
  unfold calculate_raw_materials calculate_with_steps
  rw [hr, hs]
  exact hg j

/-- Witness for C9 on the stick chain: stick↦2, plank↦1, log↦0 certifies
acyclicity and all the side conditions hold, so the two traversals give the
same log total for two sticks. -/
theorem C9_totals_agreement_witness :
    Cnt.get (calculate_raw_materials chainReg [] (J.s "stick") 2).1
        (J.s "log")
      = Cnt.get (calculate_with_steps chainReg [] (J.s "stick") 2).1
        (J.s "log") :=
  C9_totals_agreement chainReg []
    (fun j => if j = J.s "stick" then 2
      else if j = J.s "plank" then 1 else 0)
    (by decide) (by decide) (by decide) (by decide)
    (J.s "stick") 2 (by simp) (J.s "log")

/-- Counterexample to C9 as stated (unconditional agreement of the two
traversals): a supported-type recipe with an unrecognized shape makes the
totals traversal drop the item that the steps traversal reports raw; on a
cyclic diamond the memo freezes a path-dependent vector; and a zero
ingredient count poisons the memo through the per-unit division. -/
theorem C9_totals_agreement_counterexample :
    (Cnt.get (calculate_raw_materials emptyShapedReg [] (J.s "m:x") 4).1
        (J.s "m:x") = 0
      ∧ Cnt.get (calculate_with_steps emptyShapedReg [] (J.s "m:x") 4).1
        (J.s "m:x") = 4)
    ∧ (Cnt.get (calculate_raw_materials diamondCycReg [] (J.s "da") 1).1
        (J.s "db") = 2
      ∧ Cnt.get (calculate_with_steps diamondCycReg [] (J.s "da") 1).1
        (J.s "db") = 1)
    ∧ (Cnt.get (calculate_raw_materials zeroCountReg [] (J.s "za") 1).1
        (J.s "zc") = 0
      ∧ Cnt.get (calculate_with_steps zeroCountReg [] (J.s "za") 1).1
        (J.s "zc") = 2) := by
  with_unfolding_all decide

/-! Determinism of the loader selection (Claim C4). -/

theorem mem_eq_of_nodup_keys {β : Type} :
    ∀ {l : List (String × β)}, (l.map Prod.fst).Nodup →
      ∀ {a b : String × β}, a ∈ l → b ∈ l → a.1 = b.1 → a = b := by
  intro l
  induction l with
  | nil =>
    intro _ a b ha
    exact absurd ha (List.not_mem_nil a)
  | cons p t ih =>
    intro hnd a b ha hb hk
    rw [List.map_cons, List.nodup_cons] at hnd
    rcases List.mem_cons.mp ha with ha1 | ha2
    · rcases List.mem_cons.mp hb with hb1 | hb2
      · rw [ha1, hb1]
      · exfalso
        apply hnd.1
        rw [← ha1, hk]
        exact List.mem_map_of_mem Prod.fst hb2
    · rcases List.mem_cons.mp hb with hb1 | hb2
      · exfalso
        apply hnd.1
        rw [← hb1, ← hk]
        exact List.mem_map_of_mem Prod.fst ha2
      · exact ih hnd.2 ha2 hb2 hk

theorem sorted_perm_nodup_eq {β : Type} :
    ∀ (l1 l2 : List (String × β)), l1.Perm l2 →
      l1.Pairwise (fun a b => a.1 ≤ b.1) →
      l2.Pairwise (fun a b => a.1 ≤ b.1) →
      (l1.map Prod.fst).Nodup → l1 = l2 := by
  intro l1
  induction l1 with
  | nil =>
    intro l2 hp _ _ _
    exact hp.nil_eq
  | cons a t1 ih =>
    intro l2 hp hs1 hs2 hnd
    cases l2 with
    | nil => simp at hp
    | cons b t2 =>
      have ha2 : a ∈ b :: t2 := hp.mem_iff.mp (List.mem_cons_self a t1)
      have hb1 : b ∈ a :: t1 := hp.symm.mem_iff.mp (List.mem_cons_self b t2)
      have hab : a = b := by
        rcases List.mem_cons.mp hb1 with h | hbt1
        · exact h.symm
        · rcases List.mem_cons.mp ha2 with h | hat2
          · exact h
          · have hle1 : a.1 ≤ b.1 := (List.pairwise_cons.mp hs1).1 b hbt1
            have hle2 : b.1 ≤ a.1 := (List.pairwise_cons.mp hs2).1 a hat2
            exact mem_eq_of_nodup_keys hnd (List.mem_cons_self a t1) hb1
              (le_antisymm hle1 hle2)
      have hp' : t1.Perm t2 := by
        rw [hab] at hp
        exact hp.cons_inv
      rw [List.map_cons, List.nodup_cons] at hnd
      rw [hab, ih t2 hp' (List.pairwise_cons.mp hs1).2
        (List.pairwise_cons.mp hs2).2 hnd.2]

theorem mergeSort_pathLe_sorted {β : Type} (l : List (String × β)) :
    (l.mergeSort pathLe).Pairwise (fun a b => a.1 ≤ b.1) := by
  have h := @List.sorted_mergeSort (String × β) pathLe
    (fun a b c hab hbc => by
      simp only [pathLe, decide_eq_true_eq] at hab hbc ⊢
      exact le_trans hab hbc)
    (fun a b => by
      simp only [pathLe]
      rcases le_total a.1 b.1 with h | h
      · simp [h]
      · simp [h])
    l
  exact h.imp (fun hab => by
    simpa [pathLe, decide_eq_true_eq] using hab)

theorem mergeSort_eq_of_perm {β : Type} (l1 l2 : List (String × β))
    (hp : l1.Perm l2) (hnd : (l1.map Prod.fst).Nodup) :
    l1.mergeSort pathLe = l2.mergeSort pathLe := by
  apply sorted_perm_nodup_eq
  · exact (List.mergeSort_perm l1 pathLe).trans
      (hp.trans (List.mergeSort_perm l2 pathLe).symm)
  · exact mergeSort_pathLe_sorted l1
  · exact mergeSort_pathLe_sorted l2
  · exact (((List.mergeSort_perm l1 pathLe).map Prod.fst).nodup_iff).mpr hnd

theorem considerFile_eq (b : BestMap) (data : J) (r : Nat) :
    considerFile b data r
    = if (extract_result_item data).truthy
      then consider b (extract_result_item data) data r else b := rfl

theorem candsFor_cons (c : Cand) (cs : List Cand) (it : J) :
    candsFor (c :: cs) it
    = if c.1 = it then (score_tuple c.2.1 c.2.2, c.2.1) :: candsFor cs it
      else candsFor cs it := by
  by_cases h : c.1 = it
  · simp [candsFor, List.filter_cons, h]
  · simp [candsFor, List.filter_cons, h]

theorem candsFor_append (l1 l2 : List Cand) (it : J) :
    candsFor (l1 ++ l2) it = candsFor l1 it ++ candsFor l2 it := by
  simp [candsFor, List.filter_append]

theorem considerFold_get :
    ∀ (cs : List Cand) (b : BestMap) (it : J),
      assocGet (cs.foldl (fun b c => consider b c.1 c.2.1 c.2.2) b) it
      = (candsFor cs it).foldl
          (fun acc c =>
            match acc with
            | none => some c
            | some p => if scoreGt c.1 p.1 then some c else some p)
          (assocGet b it) := by
  intro cs
  induction cs with
  | nil => intro b it; rfl
  | cons c t ihc =>
    intro b it
    rw [List.foldl_cons, ihc, candsFor_cons]
    by_cases h : c.1 = it
    · rw [if_pos h, List.foldl_cons]
      congr 1
      subst h
      unfold consider
      rcases Option.eq_none_or_eq_some (assocGet b c.1) with hb | ⟨prev, hb⟩
      · rw [hb]
        dsimp only
        rw [assocGet_assocSet_self]
      · rw [hb]
        dsimp only
        by_cases hgt : scoreGt (score_tuple c.2.1 c.2.2) prev.1 = true
        · rw [if_pos hgt, if_pos hgt, assocGet_assocSet_self]
        · rw [if_neg hgt, if_neg hgt, hb]
    · rw [if_neg h]
      congr 1
      unfold consider
      rcases Option.eq_none_or_eq_some (assocGet b c.1) with hb | ⟨prev, hb⟩
      · rw [hb]
        dsimp only
        exact assocGet_assocSet_ne b c.1 it _ (Ne.symm h)
      · rw [hb]
        dsimp only
        by_cases hgt : scoreGt (score_tuple c.2.1 c.2.2) prev.1 = true
        · rw [if_pos hgt]
          exact assocGet_assocSet_ne b c.1 it _ (Ne.symm h)
        · rw [if_neg hgt]

theorem loose_files_cands :
    ∀ (l : List (String × J)) (b : BestMap),
      l.foldl (fun b f => considerFile b f.2 1) b
      = (l.filterMap (fun fp =>
          let out := extract_result_item fp.2
          if out.truthy then some ((out, fp.2, 1) : Cand) else none)).foldl
          (fun b c => consider b c.1 c.2.1 c.2.2) b := by
  intro l
  induction l with
  | nil => intro b; rfl
  | cons f t ih =>
    intro b
    rw [List.foldl_cons, List.filterMap_cons, considerFile_eq]
    dsimp only
    by_cases h : (extract_result_item f.2).truthy = true
    · rw [if_pos h, if_pos h]
      dsimp only
      rw [List.foldl_cons]
      exact ih _
    · rw [if_neg h, if_neg h]
      dsimp only
      exact ih b

theorem loose_phase_cands (loose : List (String × J)) (b : BestMap) :
    (loose.mergeSort pathLe).foldl (fun b f => considerFile b f.2 1) b
    = (looseCands loose).foldl (fun b c => consider b c.1 c.2.1 c.2.2) b :=
  loose_files_cands (loose.mergeSort pathLe) b

theorem jar_entries_cands :
    ∀ (entries : List (String × Option J)) (b : BestMap),
      entries.foldl
        (fun b2 e =>
          if jarEntryOk e.1 then
            match e.2 with
            | none => b2
            | some data => considerFile b2 data 0
          else b2) b
      = (entries.filterMap (fun e =>
          if jarEntryOk e.1 then
            match e.2 with
            | none => none
            | some data =>
              let out := extract_result_item data
              if out.truthy then some ((out, data, 0) : Cand) else none
          else none)).foldl
          (fun b c => consider b c.1 c.2.1 c.2.2) b := by
  intro entries
  induction entries with
  | nil => intro b; rfl
  | cons e t ih =>
    intro b
    rw [List.foldl_cons, List.filterMap_cons]
    dsimp only
    by_cases hok : jarEntryOk e.1 = true
    · rw [if_pos hok, if_pos hok]
      rcases Option.eq_none_or_eq_some e.2 with he | ⟨data, he⟩
      · rw [he]
        dsimp only
        exact ih b
      · rw [he]
        dsimp only
        rw [considerFile_eq]
        by_cases htr : (extract_result_item data).truthy = true
        · rw [if_pos htr, if_pos htr]
          dsimp only
          rw [List.foldl_cons]
          exact ih _
        · rw [if_neg htr, if_neg htr]
          dsimp only
          exact ih b
    · rw [if_neg hok, if_neg hok]
      dsimp only
      exact ih b

theorem jar_phase_cands :
    ∀ (jars : List (String × Option (List (String × Option J)))) (b : BestMap),
      loadJarPhase b jars
      = (jarCands jars).foldl (fun b c => consider b c.1 c.2.1 c.2.2) b := by
  intro jars
  induction jars with
  | nil => intro b; rfl
  | cons jar t ih =>
    intro b
    unfold loadJarPhase jarCands
    rw [List.foldl_cons, List.flatMap_cons, List.foldl_append]
    rcases Option.eq_none_or_eq_some jar.2 with hj | ⟨entries, hj⟩
    · rw [hj]
      dsimp only
      exact ih b
    · rw [hj]
      dsimp only
      rw [jar_entries_cands]
      exact ih _

theorem script_blocks_cands :
    ∀ (blks : List (Option J)) (b : BestMap),
      blks.foldl
        (fun b2 blk =>
          match blk with
          | some (.o fl) =>
            if jEndsInscriber (rtypeOf (.o fl)) then considerFile b2 (.o fl) 1
            else b2
          | _ => b2) b
      = (blks.filterMap (fun blk =>
          match blk with
          | some (.o fl) =>
            if jEndsInscriber (rtypeOf (.o fl)) then
              let out := extract_result_item (.o fl)
              if out.truthy then some ((out, .o fl, 1) : Cand) else none
            else none
          | _ => none)).foldl
          (fun b c => consider b c.1 c.2.1 c.2.2) b := by
  intro blks
  induction blks with
  | nil => intro b; rfl
  | cons blk t ih =>
    intro b
    rw [List.foldl_cons, List.filterMap_cons]
    dsimp only
    cases blk with
    | none =>
      dsimp only
      exact ih b
    | some jv =>
      cases jv with
      | o fl =>
        dsimp only
        by_cases hin : jEndsInscriber (rtypeOf (.o fl)) = true
        · rw [if_pos hin, if_pos hin, considerFile_eq]
          by_cases htr : (extract_result_item (.o fl)).truthy = true
          · rw [if_pos htr, if_pos htr]
            dsimp only
            rw [List.foldl_cons]
            exact ih _
          · rw [if_neg htr, if_neg htr]
            dsimp only
            exact ih b
        · rw [if_neg hin, if_neg hin]
          dsimp only
          exact ih b
      | s v =>
        dsimp only
        exact ih b
      | i v =>
        dsimp only
        exact ih b
      | f v =>
        dsimp only
        exact ih b
      | b v =>
        dsimp only
        exact ih b
      | null =>
        dsimp only
        exact ih b
      | a l =>
        dsimp only
        exact ih b

theorem script_phase_cands :
    ∀ (scripts : List (String × List (Option J))) (b : BestMap),
      loadScriptPhase b scripts
      = (scriptCands scripts).foldl (fun b c => consider b c.1 c.2.1 c.2.2) b := by
  intro scripts b
  unfold loadScriptPhase scriptCands
  generalize scripts.mergeSort pathLe = files
  induction files generalizing b with
  | nil => rfl
  | cons sf t ih =>
    rw [List.foldl_cons, List.flatMap_cons, List.foldl_append]
    rw [script_blocks_cands]
    exact ih _

theorem materialize_get :
    ∀ (best : BestMap) (it : J),
      assocGet (materialize best) it = (assocGet best it).map (fun p => p.2) := by
  intro best it
  induction best with
  | nil => rfl
  | cons p t ih =>
    by_cases h : p.1 = it
    · simp [materialize, assocGet, h]
    · simp only [materialize, List.map_cons, assocGet, h, if_false, if_neg h]
      exact ih

theorem assocGet_ite_keep (c : Prop) [Decidable c] (b : Registry)
    (key v it : J) (h : it ≠ key) :
    assocGet (if c then b else assocSet b key v) it = assocGet b it := by
  split
  · rfl
  · exact assocGet_assocSet_ne b key it v h

theorem assocGet_ite_put (c : Prop) [Decidable c] (b : Registry)
    (key v it : J) (h : it ≠ key) :
    assocGet (if c then assocSet b key v else b) it = assocGet b it := by
  split
  · exact assocGet_assocSet_ne b key it v h
  · rfl

theorem load_recipes_get (loose : List (String × J))
    (jars : List (String × Option (List (String × Option J))))
    (scripts : List (String × List (Option J))) (it : J)
    (h1 : it ≠ J.s "minecraft:stick")
    (h2 : it ≠ J.s "minecraft:oak_planks")
    (h3 : it ≠ J.s "minecraft:diamond_pickaxe")
    (h4 : it ≠ J.s "ae2:controller") :
    assocGet (load_recipes loose jars scripts) it
    = (selectSpec (candsFor
        (looseCands loose ++ jarCands jars ++ scriptCands scripts) it)).map
      (fun p => p.2) := by
  unfold load_recipes
  rw [assocGet_ite_put _ _ _ _ _ h4]
  rw [assocGet_ite_keep _ _ _ _ _ h3]
  rw [assocGet_ite_keep _ _ _ _ _ h2]
  rw [assocGet_ite_keep _ _ _ _ _ h1]
  rw [materialize_get]
  refine congrArg (Option.map _) ?_
  rw [script_phase_cands, jar_phase_cands, loose_phase_cands]
  rw [considerFold_get, considerFold_get, considerFold_get]
  unfold selectSpec
  rw [candsFor_append, candsFor_append, List.foldl_append, List.foldl_append]
  rfl

/-- Claim C4 (deterministic selection, amended): the loader is invariant
under reordering loose declaration files and script files (their
traversals sort by path), and for every non-fallback item the selected
entry is exactly the first lexicographically-maximal candidate of the
consideration sequence (highest (is-parseable, type-priority, rank) score
wins, ties keep the earlier candidate); jar archives, however, are scanned
in given filesystem order (see the counterexample). -/
theorem C4_deterministic_selection
    (loose1 loose2 : List (String × J))
    (jars : List (String × Option (List (String × Option J))))
    (scripts1 scripts2 : List (String × List (Option J)))
    (hperm : loose1.Perm loose2)
    (hnd : (loose1.map Prod.fst).Nodup)
    (hperm2 : scripts1.Perm scripts2)
    (hnd2 : (scripts1.map Prod.fst).Nodup) :
    load_recipes loose1 jars scripts1 = load_recipes loose2 jars scripts1
    ∧ load_recipes loose1 jars scripts1 = load_recipes loose1 jars scripts2
    ∧ ∀ it, it ≠ J.s "minecraft:stick" → it ≠ J.s "minecraft:oak_planks" →
        it ≠ J.s "minecraft:diamond_pickaxe" → it ≠ J.s "ae2:controller" →
        assocGet (load_recipes loose1 jars scripts1) it
        = (selectSpec (candsFor
            (looseCands loose1 ++ jarCands jars ++ scriptCands scripts1) it)).map
          (fun p => p.2) := by
  refine ⟨?_, ?_, ?_⟩
  · unfold load_recipes
    rw [mergeSort_eq_of_perm loose1 loose2 hperm hnd]
  · unfold load_recipes loadScriptPhase
    rw [mergeSort_eq_of_perm scripts1 scripts2 hperm2 hnd2]
  · intro it hi1 hi2 hi3 hi4
    exact load_recipes_get loose1 jars scripts1 it hi1 hi2 hi3 hi4

/-- Witness for C4: swapping two loose declaration files leaves the loaded
registry unchanged, and the selected entry for m:i is the specified first
maximum of its candidate scores. -/
theorem C4_deterministic_selection_witness :
    load_recipes [("a.json", jarDeclA), ("b.json", jarDeclB)] [] []
      = load_recipes [("b.json", jarDeclB), ("a.json", jarDeclA)] [] []
    ∧ assocGet (load_recipes [("a.json", jarDeclA), ("b.json", jarDeclB)] [] [])
        (J.s "m:i")
      = (selectSpec (candsFor
          (looseCands [("a.json", jarDeclA), ("b.json", jarDeclB)]
            ++ jarCands [] ++ scriptCands []) (J.s "m:i"))).map
        (fun p => p.2) :=
  ⟨(C4_deterministic_selection
      [("a.json", jarDeclA), ("b.json", jarDeclB)]
      [("b.json", jarDeclB), ("a.json", jarDeclA)]
      [] [] [] (by decide) (by decide) (by decide) (by decide)).1,
   (C4_deterministic_selection
      [("a.json", jarDeclA), ("b.json", jarDeclB)]
      [("b.json", jarDeclB), ("a.json", jarDeclA)]
      [] [] [] (by decide) (by decide) (by decide) (by decide)).2.2
     (J.s "m:i") (by decide) (by decide) (by decide) (by decide)⟩

/-- Counterexample to C4 as stated: the jar phase iterates archives in the
order the filesystem lists them, so two equal-scoring declarations of the
same item select differently when the jar order is swapped — the loader is
not independent of jar discovery order. -/
theorem C4_deterministic_selection_counterexample :
    assocGet (load_recipes [] [jarA, jarB] []) (J.s "m:i") = some jarDeclA
    ∧ assocGet (load_recipes [] [jarB, jarA] []) (J.s "m:i") = some jarDeclB
    ∧ jarDeclA ≠ jarDeclB := by
  have hms : (([] : List (String × J)).mergeSort pathLe) = [] := by simp
  have hms2 : (([] : List (String × List (Option J))).mergeSort pathLe) = [] := by
    simp
  refine ⟨?_, ?_, by decide⟩
  · unfold load_recipes loadScriptPhase
    rw [hms, hms2]
    with_unfolding_all decide
  · unfold load_recipes loadScriptPhase
    rw [hms, hms2]
    with_unfolding_all decide
